import Mathlib

/-!
Verification of the phrase-net core pipeline (`phrase-net-backend/phrase_net_core.py`,
with the HTTP error mapping of `main.py`).

The graph model mirrors `networkx.DiGraph` as used by the source: a graph is an
insertion-ordered list of nodes (id plus an attribute record with the optional
`frequency` and `group_members` keys) and an insertion-ordered list of edges
(source, target, `weight`, optional `relation`), with at most one edge per ordered
pair of ids.  Python iteration order over dicts is insertion order, which the list
order models; Python *set* iteration order is unspecified, and wherever the source
iterates over a set (`set(window)` in the window loop, `nodes_to_check.pop()` and the
group sets in `_compress_edges`) the embedding fixes the first-occurrence order.
Python strings are Lean `String`s; `str.lower` and `str.startswith` are modelled
character-wise on `String.data` (`strToLower`, `strStartsWith`), which agrees with
Python on the ASCII identifiers the pipeline manipulates.

The NLP annotator (`NLP_CONFIG`) is external I/O: the embedding takes the post-load
state of `NLP_CONFIG` as an explicit `NlpState` argument — `absent` is the state in
which `NLP_CONFIG['pipeline']` is `None` (the defensively handled case), and the
`spacy`/`stanza` states carry the annotation function that `nlp(text)` evaluates.
-/

namespace PhraseNet

/-- Attribute dictionary of a networkx node as used by the source: the optional
`frequency` and `group_members` keys.  `none` models an absent key; reads in the
source go through `.get("frequency", 1)` or key-presence tests. -/
structure NodeData where
  frequency : Option Nat
  group_members : Option (List String)
deriving DecidableEq

/-- An edge of the directed graph: `weight` is always set by the constructors in the
source, `relation` models the optional `relation` key (an absent key and an explicit
`None` value are observationally identical in the source, which only reads the key
through `.get("relation")`). -/
structure Edge where
  src : String
  tgt : String
  weight : Nat
  relation : Option String
deriving DecidableEq

/-- A `networkx.DiGraph` value as manipulated by the pipeline. -/
structure Graph where
  nodes : List (String × NodeData)
  edges : List Edge
deriving DecidableEq

/-- Node attribute record with no keys set. -/
def emptyAttrs : NodeData := ⟨none, none⟩

/-- The list of node identifiers in insertion order (`graph.nodes()`). -/
def Graph.nodeIds (g : Graph) : List String := g.nodes.map Prod.fst

/-- Membership test `graph.has_node(n)`. -/
def Graph.hasNode (g : Graph) (n : String) : Bool := g.nodes.any (fun nd => nd.1 == n)

/-- Read `graph.nodes[n].get("frequency", 1)`. -/
def Graph.freqOf (g : Graph) (n : String) : Nat :=
  match g.nodes.find? (fun nd => nd.1 == n) with
  | some nd => nd.2.frequency.getD 1
  | none => 1

/-- Add a node with no attributes if absent (the implicit node creation performed by
`add_edge` for endpoints that are not yet nodes). -/
def Graph.ensureNode (g : Graph) (n : String) : Graph :=
  if g.hasNode n then g else ⟨g.nodes ++ [(n, emptyAttrs)], g.edges⟩

/-- `graph.add_node(n, ...)` with an explicit attribute record: creates the node or
overwrites the given attribute keys of an existing node (the source only ever calls
it with both keys, so overwriting the whole record is faithful). -/
def Graph.addNodeAttr (g : Graph) (n : String) (d : NodeData) : Graph :=
  if g.hasNode n then ⟨g.nodes.map (fun nd => if nd.1 == n then (n, d) else nd), g.edges⟩
  else ⟨g.nodes ++ [(n, d)], g.edges⟩

/-- `graph.has_edge(u, v)`. -/
def Graph.hasEdge (g : Graph) (u v : String) : Bool :=
  g.edges.any (fun e => e.src == u && e.tgt == v)

/-- Add `w` to the weight of the (unique) stored edge `u -> v`
(`graph[u][v]["weight"] += w`); updates the first stored match like the underlying
adjacency dictionary holds a single entry per ordered pair. -/
def bumpEdgeList : List Edge → String → String → Nat → List Edge
  | [], _, _, _ => []
  | e :: es, u, v, w =>
      if e.src == u && e.tgt == v then { e with weight := e.weight + w } :: es
      else e :: bumpEdgeList es u v w

/-- In-place weight increment of an existing edge. -/
def Graph.bumpEdge (g : Graph) (u v : String) (w : Nat) : Graph :=
  ⟨g.nodes, bumpEdgeList g.edges u v w⟩

/-- `graph.add_edge(u, v, weight=w, relation=r)` for a pair that is not yet an edge:
creates missing endpoint nodes with no attributes and appends the edge. -/
def Graph.addEdgeG (g : Graph) (u v : String) (w : Nat) (r : Option String) : Graph :=
  let g1 := (g.ensureNode u).ensureNode v
  ⟨g1.nodes, g1.edges ++ [⟨u, v, w, r⟩]⟩

/-- `set(graph.predecessors(n))` as a list (membership is what the source compares). -/
def Graph.predList (g : Graph) (n : String) : List String :=
  (g.edges.filter (fun e => e.tgt == n)).map (fun e => e.src)

/-- `set(graph.successors(n))` as a list. -/
def Graph.succList (g : Graph) (n : String) : List String :=
  (g.edges.filter (fun e => e.src == n)).map (fun e => e.tgt)

/-- `graph.in_degree(n)`: number of stored edges into `n`. -/
def Graph.inDeg (g : Graph) (n : String) : Nat :=
  (g.edges.filter (fun e => e.tgt == n)).length

/-- `graph.out_degree(n)`: number of stored edges out of `n`. -/
def Graph.outDeg (g : Graph) (n : String) : Nat :=
  (g.edges.filter (fun e => e.src == n)).length

/-- Some edge of `g` touches `n` (negation of `n ∈ nx.isolates(g)`). -/
def Graph.hasIncident (g : Graph) (n : String) : Bool :=
  g.edges.any (fun e => e.src == n || e.tgt == n)

/-- Sum of the `weight` of all edges. -/
def Graph.weightSum (g : Graph) : Nat := (g.edges.map (fun e => e.weight)).sum

/-- Sum over all nodes of `frequency` read with default 1. -/
def Graph.freqSum (g : Graph) : Nat :=
  (g.nodes.map (fun nd => nd.2.frequency.getD 1)).sum

/-- Well-formedness invariant every graph built through the networkx interface has:
unique node identifiers, at most one stored edge per ordered pair, and edge
endpoints registered as nodes. -/
def Graph.WF (g : Graph) : Prop :=
  g.nodeIds.Nodup ∧
  g.edges.Pairwise (fun e1 e2 => ¬(e1.src = e2.src ∧ e1.tgt = e2.tgt)) ∧
  ∀ e ∈ g.edges, e.src ∈ g.nodeIds ∧ e.tgt ∈ g.nodeIds

instance (g : Graph) : Decidable g.WF := by
  unfold Graph.WF; infer_instance

/-- No stored edge is a self-loop (`u == v`); an invariant of the spec data model. -/
def Graph.NoSelfLoops (g : Graph) : Prop := ∀ e ∈ g.edges, e.src ≠ e.tgt

instance (g : Graph) : Decidable g.NoSelfLoops := by
  unfold Graph.NoSelfLoops; infer_instance

/-- Every node has at least one incident edge. -/
def Graph.NoIsolated (g : Graph) : Prop := ∀ n ∈ g.nodeIds, g.hasIncident n = true

instance (g : Graph) : Decidable g.NoIsolated := by
  unfold Graph.NoIsolated; infer_instance

/-- No node identifier contains the `'|'` separator used to build super-node names. -/
def Graph.PipeFree (g : Graph) : Prop := ∀ n ∈ g.nodeIds, '|' ∉ n.data

instance (g : Graph) : Decidable g.PipeFree := by
  unfold Graph.PipeFree; infer_instance

/-- Endpoint closure: every stored edge's endpoints are registered nodes. -/
def Graph.Closed (g : Graph) : Prop :=
  ∀ e ∈ g.edges, e.src ∈ g.nodeIds ∧ e.tgt ∈ g.nodeIds

/-! ### String helpers (character-wise models of the Python `str` methods) -/

/-- Character-wise model of Python `str.lower()` (agrees on ASCII). -/
def strToLower (s : String) : String := ⟨s.data.map Char.toLower⟩

/-- Model of Python `s.startswith(p)`. -/
def strStartsWith (s p : String) : Bool := p.data.isPrefixOf s.data

/-- Character-wise model of Python `str.strip()` with no argument: remove leading
and trailing whitespace. -/
def strTrim (s : String) : String :=
  ⟨((s.data.dropWhile Char.isWhitespace).reverse.dropWhile Char.isWhitespace).reverse⟩

/-- Model of Python `'|'.join(group)`. -/
def joinPipe : List String → String
  | [] => ""
  | [s] => s
  | s :: rest => s ++ "|" ++ joinPipe rest

/-! ### Tokenization fallback (`re.findall(r"\b\w+\b", text.lower())`) -/

/-- A regex `\w` word character (ASCII reading: alphanumeric or underscore). -/
def isWordChar (c : Char) : Bool := c.isAlphanum || c == '_'

/-- Accumulator pass splitting a character list into maximal runs of word
characters; `cur` holds the current run reversed. -/
def wordRunsAux : List Char → List Char → List (List Char)
  | [], cur => if cur.isEmpty then [] else [cur.reverse]
  | c :: cs, cur =>
      if isWordChar c then wordRunsAux cs (c :: cur)
      else if cur.isEmpty then wordRunsAux cs []
      else cur.reverse :: wordRunsAux cs []

/-- `re.findall(r"\b\w+\b", s)`: the maximal word-character runs of `s`. -/
def tokenize (s : String) : List String :=
  (wordRunsAux s.data []).map (fun cs => ⟨cs⟩)

/-- Keys of `collections.Counter(l)` in first-occurrence order (Python dicts keep
insertion order). -/
def firstKeys (l : List String) : List String :=
  l.foldl (fun acc x => if acc.contains x then acc else acc ++ [x]) []

/-- `itertools.combinations(l, 2)` on a list: all pairs `(l[i], l[j])` with `i < j`
in lexicographic index order. -/
def pairsOf : List String → List (String × String)
  | [] => []
  | x :: xs => xs.map (fun y => (x, y)) ++ pairsOf xs

/-! ### Annotator interface -/

/-- A spaCy token as consumed by the source, with the fields of its head token
flattened in (the source only reads `head.lemma_`, `head.is_punct`, `head.is_space`). -/
structure SpacyTok where
  lemma_ : String
  is_punct : Bool
  is_space : Bool
  is_stop : Bool
  dep : String
  head_lemma : String
  head_is_punct : Bool
  head_is_space : Bool

/-- A stanza word: `head` is the 1-based index of the head in its sentence, 0 for root. -/
structure StanzaWord where
  lemma_ : String
  upos : String
  head : Nat
  deprel : String

/-- The reachable states of `NLP_CONFIG` after `load_nlp_pipeline` has returned:
either no pipeline is loaded (whatever `tool_name` holds), or a consistent
tool/pipeline pair whose pipeline maps text to its annotation. -/
inductive NlpState where
  | absent (tool_name : Option String)
  | spacy (f : String → List SpacyTok)
  | stanza (f : String → List (List StanzaWord))

/-- The `tool` string as it appears interpolated into the error message
(`f"({tool})"`; Python renders `None` as the string `"None"`). -/
def NlpState.toolStr : NlpState → String
  | .absent none => "None"
  | .absent (some s) => s
  | .spacy _ => "spacy"
  | .stanza _ => "stanza"

/-- The Python exception classes raised by the core (`RuntimeError` / `ValueError`),
carrying their message. -/
inductive PyError where
  | runtimeError (msg : String)
  | valueError (msg : String)
deriving DecidableEq

/-! ### `_preprocess_text` and `_orthographic_linking` -/

/-- `_preprocess_text`: `text.lower().strip()`. -/
def _preprocess_text (text : String) : String := strTrim (strToLower text)

/-- The fixed co-occurrence window width (`window_size = 5` in the source). -/
def window_size : Nat := 5

/-- The lemma sequence computed at the top of `_orthographic_linking`: regex
tokenization when no pipeline is loaded, otherwise the lowercased lemmas of the
non-punctuation / non-space (and for spaCy non-stop) tokens that are not in the
caller stopword set (compared un-lowercased, as in the source). -/
def orthoLemmas (st : NlpState) (text : String) (stopwords : List String) : List String :=
  match st with
  | .absent _ =>
      (tokenize (strToLower text)).filter (fun w => !(stopwords.contains w))
  | .spacy f =>
      ((f text).filter (fun t =>
          !t.is_punct && !t.is_space && !t.is_stop &&
            !(stopwords.contains (strToLower t.lemma_)))).map (fun t => strToLower t.lemma_)
  | .stanza f =>
      (((f text).map (fun sent =>
          (sent.filter (fun w =>
              w.upos != "PUNCT" && w.upos != "SPACE" &&
                !(stopwords.contains (strToLower w.lemma_)))).map
            (fun w => strToLower w.lemma_))).flatten)

/-- The window loop of `_orthographic_linking`: add one frequency-attributed node per
distinct lemma, then for each length-5 window increment an edge for every ordered
pair produced by `combinations(set(window), 2)` (the window de-duplicated in
first-occurrence order). -/
def windowGraph (lemmas : List String) : Graph :=
  let g0 : Graph := ⟨(firstKeys lemmas).map (fun t => (t, ⟨some (lemmas.count t), none⟩)), []⟩
  (List.range (lemmas.length + 1 - window_size)).foldl (fun g i =>
    (pairsOf (firstKeys ((lemmas.drop i).take window_size))).foldl (fun g2 p =>
      if p.1 ≠ p.2 then
        if g2.hasEdge p.1 p.2 then g2.bumpEdge p.1 p.2 1
        else g2.addEdgeG p.1 p.2 1 none
      else g2) g) g0

/-- `_orthographic_linking(text, pattern, stopwords)`.  The `pattern` argument is
accepted and never consulted, exactly as in the source. -/
def _orthographic_linking (st : NlpState) (text : String) (pattern : String)
    (stopwords : List String) : Graph :=
  windowGraph (orthoLemmas st text stopwords)

/-! ### `_syntactic_linking` -/

/-- The fixed dependency allow-list `RELEVANT_DEPS`. -/
def RELEVANT_DEPS : List String := ["nsubj", "obj", "iobj", "conj", "acl", "advcl"]

/-- `token_frequency.get(node, 1)` where `token_frequency = Counter(lemmas)`. -/
def counterGet (lemmas : List String) (n : String) : Nat :=
  if lemmas.count n = 0 then 1 else lemmas.count n

/-- `if not graph.has_node(node): graph.add_node(node, frequency=...)`. -/
def Graph.ensureNodeFreq (g : Graph) (n : String) (f : Nat) : Graph :=
  if g.hasNode n then g else ⟨g.nodes ++ [(n, ⟨some f, none⟩)], g.edges⟩

/-- The document-wide lemma list of the spaCy branch of `_syntactic_linking`. -/
def spacyLemmas (doc : List SpacyTok) : List String :=
  (doc.filter (fun t => !t.is_punct && !t.is_space && !t.is_stop)).map
    (fun t => strToLower t.lemma_)

/-- The document-wide lemma list of the stanza branch of `_syntactic_linking`. -/
def stanzaLemmas (sents : List (List StanzaWord)) : List String :=
  ((sents.map (fun sent =>
      (sent.filter (fun w => w.upos != "PUNCT" && w.upos != "SPACE")).map
        (fun w => strToLower w.lemma_))).flatten)

/-- One step of the spaCy dependency loop of `_syntactic_linking`. -/
def spacySynStep (stopwords : List String) (lemmas : List String) (g : Graph)
    (t : SpacyTok) : Graph :=
  if RELEVANT_DEPS.contains t.dep && !t.is_punct && !t.is_space then
    let node_from := strToLower t.head_lemma
    let node_to := strToLower t.lemma_
    if node_from != node_to && !(stopwords.contains node_from) &&
        !(stopwords.contains node_to) && !t.head_is_punct && !t.head_is_space then
      let g2 := (g.ensureNodeFreq node_from (counterGet lemmas node_from)).ensureNodeFreq
        node_to (counterGet lemmas node_to)
      if g2.hasEdge node_from node_to then g2.bumpEdge node_from node_to 1
      else g2.addEdgeG node_from node_to 1 (some t.dep)
    else g
  else g

/-- One sentence of the stanza dependency loop of `_syntactic_linking`
(`word_map.get(word.head)` is the 1-based sentence lookup). -/
def stanzaSynSent (stopwords : List String) (lemmas : List String) (g : Graph)
    (sent : List StanzaWord) : Graph :=
  sent.foldl (fun acc w =>
    if w.head > 0 ∧ w.deprel ∈ RELEVANT_DEPS then
      match sent.get? (w.head - 1) with
      | none => acc
      | some hw =>
        if w.upos != "PUNCT" && hw.upos != "PUNCT" then
          let node_from := strToLower hw.lemma_
          let node_to := strToLower w.lemma_
          if node_from != node_to && !(stopwords.contains node_from) &&
              !(stopwords.contains node_to) then
            let g2 := (acc.ensureNodeFreq node_from (counterGet lemmas node_from)).ensureNodeFreq
              node_to (counterGet lemmas node_to)
            if g2.hasEdge node_from node_to then g2.bumpEdge node_from node_to 1
            else g2.addEdgeG node_from node_to 1 (some w.deprel)
          else acc
        else acc
    else acc) g

/-- `_syntactic_linking(text, stopwords)`: raises the missing-capability
`RuntimeError` when no pipeline is loaded, otherwise builds the dependency graph of
the active annotator's output. -/
def _syntactic_linking (st : NlpState) (text : String) (stopwords : List String) :
    Except PyError Graph :=
  match st with
  | .absent tn =>
      .error (.runtimeError ("Ferramenta NLP (" ++ (NlpState.absent tn).toolStr ++
        ") não carregada. Não é possível rodar Syntactic Linking."))
  | .spacy f =>
      let doc := f text
      let lemmas := spacyLemmas doc
      .ok (doc.foldl (spacySynStep stopwords lemmas) ⟨[], []⟩)
  | .stanza f =>
      let sents := f text
      let lemmas := stanzaLemmas sents
      .ok (sents.foldl (stanzaSynSent stopwords lemmas) ⟨[], []⟩)

/-! ### `_filter_network` -/

/-- The relevance score of a node: sum of outgoing plus incoming edge weights. -/
def Graph.nodeScore (g : Graph) (n : String) : Nat :=
  ((g.edges.filter (fun e => e.src == n)).map (fun e => e.weight)).sum +
    ((g.edges.filter (fun e => e.tgt == n)).map (fun e => e.weight)).sum

/-- `graph.remove_nodes_from(rem)` (also dropping edges incident to removed nodes). -/
def removeNodesG (g : Graph) (rem : List String) : Graph :=
  ⟨g.nodes.filter (fun nd => !(rem.contains nd.1)),
    g.edges.filter (fun e => !(rem.contains e.src) && !(rem.contains e.tgt))⟩

/-- `graph.subgraph(sel).copy()`: the induced subgraph on the selected ids. -/
def subgraphOn (g : Graph) (sel : List String) : Graph :=
  ⟨g.nodes.filter (fun nd => sel.contains nd.1),
    g.edges.filter (fun e => sel.contains e.src && sel.contains e.tgt)⟩

/-- Stable insert for descending sort by score: an element is placed before the
first entry whose score is `≤` its own, so equal scores keep their original order —
the behaviour of Python `sorted(..., key=score, reverse=True)`. -/
def insertDesc (x : String × Nat) : List (String × Nat) → List (String × Nat)
  | [] => [x]
  | y :: ys => if y.2 ≤ x.2 then x :: y :: ys else y :: insertDesc x ys

/-- Stable descending sort by score. -/
def sortDesc : List (String × Nat) → List (String × Nat)
  | [] => []
  | x :: xs => insertDesc x (sortDesc xs)

/-- The first selection `while` loop: walk the ranked list, appending ids that do
not start with `SUPER_NODE:`, until `max_nodes` are selected; returns the selection
and the unconsumed suffix. -/
def selectPass1 (k : Nat) : List (String × Nat) → List String →
    (List String × List (String × Nat))
  | [], acc => (acc, [])
  | (n, s) :: rest, acc =>
      if acc.length < k then
        if strStartsWith n "SUPER_NODE:" then selectPass1 k rest acc
        else selectPass1 k rest (acc ++ [n])
      else (acc, (n, s) :: rest)

/-- The second selection `while` loop: keep filling from where the first loop
stopped, no longer skipping super-node markers. -/
def selectPass2 (k : Nat) : List (String × Nat) → List String → List String
  | [], acc => acc
  | (n, _) :: rest, acc =>
      if acc.length < k then selectPass2 k rest (acc ++ [n]) else acc

/-- `_filter_network(graph, max_nodes, stopwords)`. -/
def _filter_network (g : Graph) (max_nodes : Nat) (stopwords : List String) : Graph :=
  let sw := stopwords.map strToLower
  let nodes_to_remove := g.nodeIds.filter (fun n => sw.contains (strToLower n))
  let node_scores := (g.nodeIds.filter (fun n => !(sw.contains (strToLower n)))).map
    (fun n => (n, g.nodeScore n))
  let temp := removeNodesG g nodes_to_remove
  let sorted := sortDesc node_scores
  let p1 := selectPass1 max_nodes sorted []
  let selected := selectPass2 max_nodes p1.2 p1.1
  let filtered := subgraphOn temp selected
  removeNodesG filtered (filtered.nodeIds.filter (fun n => !(filtered.hasIncident n)))

/-! ### `_compress_edges` -/

/-- `set(pred) == set(pred) and set(succ) == set(succ)` between two nodes. -/
def listSubsetB (xs ys : List String) : Bool := xs.all (fun x => ys.contains x)

/-- Set equality of two lists by mutual containment. -/
def listSetEqB (xs ys : List String) : Bool := listSubsetB xs ys && listSubsetB ys xs

/-- Structural equivalence of the one-pass partition: identical predecessor sets and
identical successor sets in `g`. -/
def sameNbhd (g : Graph) (a b : String) : Bool :=
  listSetEqB (g.predList a) (g.predList b) && listSetEqB (g.succList a) (g.succList b)

/-- Fuel-indexed model of the partition `while` loop of `_compress_edges`: pop the
first unchecked node, collect every remaining node with the same neighborhoods into
its group, and keep groups of size `> 1`.  The fuel only serves structural
recursion; it never runs out when it starts at the list length. -/
def groupPassF (g : Graph) : Nat → List String → List (List String)
  | _, [] => []
  | 0, _ :: _ => []
  | fuel + 1, n :: rest =>
      let ms := rest.filter (fun m => sameNbhd g n m)
      let rest' := rest.filter (fun m => !(sameNbhd g n m))
      if ms.isEmpty then groupPassF g fuel rest'
      else (n :: ms) :: groupPassF g fuel rest'

/-- The `equivalent_nodes` list computed by the partition loop. -/
def groupPass (g : Graph) (l : List String) : List (List String) :=
  groupPassF g l.length l

/-- `f"SUPER_NODE:{'|'.join(group)}"`. -/
def superName (grp : List String) : String := "SUPER_NODE:" ++ joinPipe grp

/-- `node_map.get(n, n)`: the super-node name of the group containing `n`, or `n`
itself (the groups are pairwise disjoint, so the first match is the only one). -/
def nodeMapFn (groups : List (List String)) (n : String) : String :=
  match groups.find? (fun grp => grp.contains n) with
  | some grp => superName grp
  | none => n

/-- The complete re-mapping `node_map.get(n, n)` of `_compress_edges` on `g`:
map through the groups of the one-pass partition of `g`. -/
def kappaOf (g : Graph) (n : String) : String := nodeMapFn (groupPass g g.nodeIds) n

/-- `sum(graph.nodes[n].get("frequency", 1) for n in group)`. -/
def groupFreq (g : Graph) (grp : List String) : Nat := (grp.map (fun n => g.freqOf n)).sum

/-- The super-node creation loop of `_compress_edges`. -/
def buildSupers (g : Graph) (groups : List (List String)) : Graph :=
  groups.foldl (fun acc grp =>
    acc.addNodeAttr (superName grp) ⟨some (groupFreq g grp), some grp⟩) ⟨[], []⟩

/-- One step of the edge re-mapping loop of `_compress_edges`: drop edges that
became self-loops, merge parallel edges by summing weight (keeping the relation of
the first contributing edge), and otherwise add the re-mapped edge. -/
def compressStep (groups : List (List String)) (acc : Graph) (e : Edge) : Graph :=
  let u := nodeMapFn groups e.src
  let v := nodeMapFn groups e.tgt
  if u = v then acc
  else if acc.hasEdge u v then acc.bumpEdge u v e.weight
  else acc.addEdgeG u v e.weight e.relation

/-- `_compress_edges(graph)`. -/
def _compress_edges (g : Graph) : Graph :=
  if g.nodes.isEmpty then g
  else
    let groups := groupPass g g.nodeIds
    g.edges.foldl (compressStep groups) (buildSupers g groups)

/-! ### `_serialize_graph` -/

/-- An emitted node record `{id, label, frequency, inDegree, outDegree}` with the
conditionally attached `group_members` field. -/
structure SNode where
  id : String
  label : String
  frequency : Nat
  inDegree : Nat
  outDegree : Nat
  group_members : Option (List String)
deriving DecidableEq

/-- An emitted edge record `{source, target, weight, relation}`. -/
structure SEdge where
  source : String
  target : String
  weight : Nat
  relation : Option String
deriving DecidableEq

/-- The serialized payload `{nodes, edges, node_count, edge_count}`. -/
structure SerializedGraph where
  nodes : List SNode
  edges : List SEdge
  node_count : Nat
  edge_count : Nat
deriving DecidableEq

/-- The node filter of `_serialize_graph`: skip lowercased stopwords and every id
starting with `SUPER_NODE:`. -/
def serialKeep (sw : List String) (n : String) : Bool :=
  !(sw.contains (strToLower n)) && !(strStartsWith n "SUPER_NODE:")

/-- The emitted record of one surviving node: degrees are computed on the whole
input graph, `frequency` is read with default 1, and `group_members` is attached
exactly when the attribute is present. -/
def serialNode (g : Graph) (n : String) (d : NodeData) : SNode :=
  ⟨n, n, d.frequency.getD 1, g.inDeg n, g.outDeg n, d.group_members⟩

/-- `_serialize_graph(graph, stopwords)`. -/
def _serialize_graph (g : Graph) (stopwords : List String) : SerializedGraph :=
  let sw := stopwords.map strToLower
  let keep := g.nodes.filter (fun nd => serialKeep sw nd.1)
  let nodes := keep.map (fun nd => serialNode g nd.1 nd.2)
  let valid := keep.map Prod.fst
  let edges := (g.edges.filter (fun e => valid.contains e.src && valid.contains e.tgt)).map
    (fun e => (⟨e.src, e.tgt, e.weight, e.relation⟩ : SEdge))
  ⟨nodes, edges, nodes.length, edges.length⟩

/-! ### `run_phrase_net_analysis` and the HTTP error mapping -/

/-- The shared tail of `run_phrase_net_analysis`: serialize an empty initial graph
directly, otherwise filter, compress and serialize. -/
def pipelineTail (initial : Graph) (max_nodes : Nat) (stopwords : List String) :
    Except PyError SerializedGraph :=
  if initial.nodes.isEmpty then .ok (_serialize_graph initial stopwords)
  else .ok (_serialize_graph (_compress_edges (_filter_network initial max_nodes stopwords))
    stopwords)

/-- `run_phrase_net_analysis` after `load_nlp_pipeline` has returned, with the
resulting `NLP_CONFIG` state passed explicitly (a load failure re-raises before this
point and is not modelled). -/
def run_phrase_net_analysis (st : NlpState) (raw_text : String) (linking_type : String)
    (pattern : Option String) (max_nodes : Nat) (stopwords : List String) :
    Except PyError SerializedGraph :=
  let text := _preprocess_text raw_text
  if linking_type = "orthographic" then
    match pattern with
    | none => .error (.valueError "The \x27pattern\x27 is mandatory for Orthographic Linking.")
    | some p =>
        if p = "" then
          .error (.valueError "The \x27pattern\x27 is mandatory for Orthographic Linking.")
        else pipelineTail (_orthographic_linking st text p stopwords) max_nodes stopwords
  else if linking_type = "syntactic" then
    match _syntactic_linking st text stopwords with
    | .error e => .error e
    | .ok initial => pipelineTail initial max_nodes stopwords
  else .error (.valueError "Invalid linking type. Use \x27orthographic\x27 or \x27syntactic\x27.")

/-- The `except` clauses of `main.analyze_text` around the pipeline call: a
`RuntimeError` is reported as the dedicated NLP-dependency failure, any other
exception as the generic processing failure; successes pass through with status 200. -/
def analyze_text_status (r : Except PyError SerializedGraph) : Nat × String :=
  match r with
  | .ok _ => (200, "success")
  | .error (.runtimeError m) => (500, "NLP dependency error: " ++ m)
  | .error (.valueError m) => (500, "Error processing Phrase Net: " ++ m)

/-! ### Concrete test graphs -/

/-- Graph with one structural-equivalence class of size two: `a` and `b` both point
only at `c`, so compression folds them into a super-node. -/
def Gc1 : Graph :=
  ⟨[("a", ⟨some 1, none⟩), ("b", ⟨some 1, none⟩), ("c", ⟨some 2, none⟩)],
    [⟨"a", "c", 1, none⟩, ⟨"b", "c", 1, none⟩]⟩

/-- Graph with two isolated nodes (equivalent: both have empty neighborhoods). -/
def Gc2 : Graph := ⟨[("a", ⟨some 1, none⟩), ("b", ⟨some 1, none⟩)], []⟩

/-- Graph with no equivalent pair and non-trivial frequencies 5 and 2. -/
def Gc3 : Graph :=
  ⟨[("a", ⟨some 5, none⟩), ("c", ⟨some 2, none⟩)], [⟨"a", "c", 1, none⟩]⟩

/-- Two-node graph whose only edge goes into a node excluded as a stopword during
serialization. -/
def Gc10 : Graph :=
  ⟨[("a", ⟨some 1, none⟩), ("b", ⟨some 1, none⟩)], [⟨"a", "b", 1, none⟩]⟩

/-- Well-formed loop- and isolate-free two-node graph used as a witness input. -/
def Gw2 : Graph :=
  ⟨[("a", ⟨some 1, none⟩), ("b", ⟨some 2, none⟩)], [⟨"a", "b", 3, none⟩]⟩

/-- Witness input with a genuine merge (`a` and `b` share the single successor `c`)
and a self-loop that compression drops. -/
def Gw4 : Graph :=
  ⟨[("a", ⟨some 1, none⟩), ("b", ⟨some 1, none⟩), ("c", ⟨some 1, none⟩),
      ("d", ⟨some 1, none⟩)],
    [⟨"a", "c", 2, none⟩, ⟨"b", "c", 4, some "nsubj"⟩, ⟨"d", "d", 7, none⟩]⟩

/-- Witness input for the relevance filter. -/
def Gw5 : Graph :=
  ⟨[("a", ⟨some 1, none⟩), ("b", ⟨some 1, none⟩)], [⟨"a", "b", 1, none⟩]⟩

/-- Edge membership as a proposition: some stored edge goes from `u` to `v`. -/
def Graph.EM (g : Graph) (u v : String) : Prop :=
  ∃ e ∈ g.edges, e.src = u ∧ e.tgt = v

/-- The structural-equivalence relation of the one-pass partition, stated over edge
membership: identical in-neighborhoods and identical out-neighborhoods. -/
def Graph.EquivN (g : Graph) (a b : String) : Prop :=
  (∀ x, g.EM x a ↔ g.EM x b) ∧ (∀ x, g.EM a x ↔ g.EM b x)

/-! ## Theorems -/

theorem mem_predList {g : Graph} {n x : String} : x ∈ g.predList n ↔ g.EM x n := by
  simp only [Graph.predList, List.mem_map, List.mem_filter, Graph.EM, beq_iff_eq]
  constructor
  · rintro ⟨e, ⟨he, ht⟩, hs⟩
    exact ⟨e, he, hs, ht⟩
  · rintro ⟨e, he, hs, ht⟩
    exact ⟨e, ⟨he, ht⟩, hs⟩

theorem mem_succList {g : Graph} {n x : String} : x ∈ g.succList n ↔ g.EM n x := by
  simp only [Graph.succList, List.mem_map, List.mem_filter, Graph.EM, beq_iff_eq]
  constructor
  · rintro ⟨e, ⟨he, hs⟩, ht⟩
    exact ⟨e, he, hs, ht⟩
  · rintro ⟨e, he, hs, ht⟩
    exact ⟨e, ⟨he, hs⟩, ht⟩

theorem listSubsetB_iff {xs ys : List String} :
    listSubsetB xs ys = true ↔ ∀ x ∈ xs, x ∈ ys := by
  simp [listSubsetB]

theorem listSetEqB_iff {xs ys : List String} :
    listSetEqB xs ys = true ↔ ∀ x, x ∈ xs ↔ x ∈ ys := by
  simp only [listSetEqB, Bool.and_eq_true, listSubsetB_iff]
  constructor
  · rintro ⟨h1, h2⟩ x
    exact ⟨h1 x, h2 x⟩
  · intro h
    exact ⟨fun x hx => (h x).mp hx, fun x hx => (h x).mpr hx⟩

theorem sameNbhd_iff {g : Graph} {a b : String} :
    sameNbhd g a b = true ↔ g.EquivN a b := by
  simp only [sameNbhd, Bool.and_eq_true, listSetEqB_iff, Graph.EquivN]
  constructor
  · rintro ⟨hp, hs⟩
    refine ⟨fun x => ?_, fun x => ?_⟩
    · rw [← mem_predList, ← mem_predList]; exact hp x
    · rw [← mem_succList, ← mem_succList]; exact hs x
  · rintro ⟨hp, hs⟩
    refine ⟨fun x => ?_, fun x => ?_⟩
    · rw [mem_predList, mem_predList]; exact hp x
    · rw [mem_succList, mem_succList]; exact hs x

theorem EquivN_refl (g : Graph) (a : String) : g.EquivN a a :=
  ⟨fun _ => Iff.rfl, fun _ => Iff.rfl⟩

theorem EquivN_symm {g : Graph} {a b : String} (h : g.EquivN a b) : g.EquivN b a :=
  ⟨fun x => (h.1 x).symm, fun x => (h.2 x).symm⟩

theorem EquivN_trans {g : Graph} {a b c : String} (h1 : g.EquivN a b)
    (h2 : g.EquivN b c) : g.EquivN a c :=
  ⟨fun x => (h1.1 x).trans (h2.1 x), fun x => (h1.2 x).trans (h2.2 x)⟩

theorem hasEdge_iff {g : Graph} {u v : String} : g.hasEdge u v = true ↔ g.EM u v := by
  simp only [Graph.hasEdge, List.any_eq_true, Bool.and_eq_true, beq_iff_eq, Graph.EM]

theorem hasIncident_iff {g : Graph} {n : String} :
    g.hasIncident n = true ↔ ∃ e ∈ g.edges, e.src = n ∨ e.tgt = n := by
  simp only [Graph.hasIncident, List.any_eq_true, Bool.or_eq_true, beq_iff_eq]

theorem hasNode_iff {g : Graph} {n : String} : g.hasNode n = true ↔ n ∈ g.nodeIds := by
  simp [Graph.hasNode, Graph.nodeIds]

/-! ### Serializer facts -/

theorem serialize_nodes_shape (g : Graph) (sw : List String) :
    ∀ nd ∈ (_serialize_graph g sw).nodes, ∃ p ∈ g.nodes,
      serialKeep (sw.map strToLower) p.1 = true ∧ nd = serialNode g p.1 p.2 := by
  intro nd hnd
  simp only [_serialize_graph, List.mem_map, List.mem_filter] at hnd
  obtain ⟨p, ⟨hp, hk⟩, he⟩ := hnd
  exact ⟨p, hp, hk, he.symm⟩

theorem serialize_no_stopword (g : Graph) (sw : List String) :
    ((_serialize_graph g sw).nodes.all
      (fun nd => !((sw.map strToLower).contains (strToLower nd.id)))) = true := by
  rw [List.all_eq_true]
  intro nd hnd
  obtain ⟨p, _, hk, he⟩ := serialize_nodes_shape g sw nd hnd
  subst he
  simp only [serialKeep, Bool.and_eq_true] at hk
  exact hk.1

theorem serialize_no_supernode (g : Graph) (sw : List String) :
    ((_serialize_graph g sw).nodes.all
      (fun nd => !(strStartsWith nd.id "SUPER_NODE:"))) = true := by
  rw [List.all_eq_true]
  intro nd hnd
  obtain ⟨p, _, hk, he⟩ := serialize_nodes_shape g sw nd hnd
  subst he
  simp only [serialKeep, Bool.and_eq_true] at hk
  exact hk.2

theorem pipelineTail_ok {initial : Graph} {k : Nat} {sw : List String}
    {s : SerializedGraph} (h : pipelineTail initial k sw = .ok s) :
    ∃ g', s = _serialize_graph g' sw := by
  unfold pipelineTail at h
  split at h
  · exact ⟨initial, (Except.ok.injEq _ _).mp h |>.symm⟩
  · exact ⟨_compress_edges (_filter_network initial k sw), (Except.ok.injEq _ _).mp h |>.symm⟩

theorem run_ok_serialized {st : NlpState} {raw lt : String} {pat : Option String}
    {k : Nat} {sw : List String} {s : SerializedGraph}
    (h : run_phrase_net_analysis st raw lt pat k sw = .ok s) :
    ∃ g', s = _serialize_graph g' sw := by
  simp only [run_phrase_net_analysis] at h
  split at h
  · split at h
    · exact absurd h (by simp)
    · split at h
      · exact absurd h (by simp)
      · exact pipelineTail_ok h
  · split at h
    · rcases hsyn : _syntactic_linking st (_preprocess_text raw) sw with e | g0
      · rw [hsyn] at h
        exact absurd h (by simp)
      · rw [hsyn] at h
        exact pipelineTail_ok h
    · exact absurd h (by simp)

/-! ### Claim theorems (first batch) -/

/-- C1.  The claim fails on the code and the code contradicts the serializer's own
`group_members`-emitting branch: on the compressed graph of `Gc1` the synthesized
super-node (which carries `group_members` and has an incident edge) is named with
the `SUPER_NODE:` id convention, so `_serialize_graph` skips it entirely — the
emitted node list contains no node carrying `group_members` and the edge incident
to the synthesized node is not emitted. -/
theorem C1_supernode_serialization_eval :
    (_compress_edges Gc1).nodeIds = ["SUPER_NODE:a|b", "c"] ∧
    (_compress_edges Gc1).nodes.map (fun nd => nd.2.group_members) =
      [some ["a", "b"], none] ∧
    (_compress_edges Gc1).edges = [⟨"SUPER_NODE:a|b", "c", 2, none⟩] ∧
    (_serialize_graph (_compress_edges Gc1) []).nodes.map
      (fun nd => (nd.id, nd.group_members)) = [("c", none)] ∧
    (_serialize_graph (_compress_edges Gc1) []).edges = [] := by
  decide

/-- C2 (counterexample).  Compression is not idempotent on all directed weighted
graphs: on the two-isolated-node graph `Gc2` the first compression produces a
single (isolated) super-node, and compressing that output produces the empty graph,
which is not isomorphic to a one-node graph. -/
theorem C2_counterexample :
    (_compress_edges Gc2).nodes.length = 1 ∧
    (_compress_edges (_compress_edges Gc2)).nodes.length = 0 := by
  decide

/-- C3.  Frequency is not conserved through compression: `_compress_edges` rebuilds
the graph with bare `add_edge` calls, so a class-of-size-1 node loses its
`frequency` attribute, and serialization then reports the default 1.  On `Gc3` the
frequency sum before compression is 7, both surviving nodes leave compression with
no `frequency` attribute, and the serialized output reports frequency 1 for each
(sum 2). -/
theorem C3_frequency_loss_eval :
    Gc3.freqSum = 7 ∧
    (_compress_edges Gc3).nodeIds = ["a", "c"] ∧
    (_compress_edges Gc3).nodes.map (fun nd => nd.2.frequency) = [none, none] ∧
    (_serialize_graph (_compress_edges Gc3) []).nodes.map (fun nd => nd.frequency) =
      [1, 1] := by
  decide

/-- C8.  Requesting syntactic linking while the active annotator yields no
dependency data (the `NLP_CONFIG` pipeline is absent) fails with the dedicated
missing-capability `RuntimeError` naming syntactic linking, and `main.analyze_text`
surfaces it through its `RuntimeError` handler as the NLP-dependency request
failure, not through the generic processing-failure handler. -/
theorem C8_missing_capability (tn : Option String) (raw : String) (pat : Option String)
    (k : Nat) (sw : List String) :
    run_phrase_net_analysis (.absent tn) raw "syntactic" pat k sw =
      .error (.runtimeError ("Ferramenta NLP (" ++ (NlpState.absent tn).toolStr ++
        ") não carregada. Não é possível rodar Syntactic Linking.")) ∧
    analyze_text_status (run_phrase_net_analysis (.absent tn) raw "syntactic" pat k sw) =
      (500, "NLP dependency error: " ++ ("Ferramenta NLP (" ++
        (NlpState.absent tn).toolStr ++
        ") não carregada. Não é possível rodar Syntactic Linking.")) := by
  constructor
  · rfl
  · rfl

/-- C9.  Orthographic linking on the lemma sequence `["a","b","c","a","b"]` (which
the fallback tokenizer produces from the text `"a b c a b"`) with window size 5 and
an empty stopword set yields exactly one edge per unordered pair of distinct
lemmas — `(a,b)`, `(a,c)`, `(b,c)` in the embedding's first-occurrence direction —
each with weight 1, and no other edges. -/
theorem C9_window_fixture :
    orthoLemmas (.absent none) "a b c a b" [] = ["a", "b", "c", "a", "b"] ∧
    _orthographic_linking (.absent none) "a b c a b" "pat" [] =
      ⟨[("a", ⟨some 2, none⟩), ("b", ⟨some 2, none⟩), ("c", ⟨some 1, none⟩)],
        [⟨"a", "b", 1, none⟩, ⟨"a", "c", 1, none⟩, ⟨"b", "c", 1, none⟩]⟩ := by
  decide

/-- C10.  The emitted `inDegree`/`outDegree` of every serialized node are computed
on the whole input graph's edge list, not on the emitted edge list; on `Gc10` with
stopword `b`, node `a` is emitted with `outDegree` 1 although no edge is emitted,
so an emitted degree can exceed the number of emitted incident edges. -/
theorem C10_degrees_from_whole_graph :
    (∀ (g : Graph) (sw : List String),
        ((_serialize_graph g sw).nodes.all (fun nd =>
          nd.inDegree == (g.edges.filter (fun e => e.tgt == nd.id)).length &&
            nd.outDegree == (g.edges.filter (fun e => e.src == nd.id)).length)) = true) ∧
    (_serialize_graph Gc10 ["b"]).nodes.map
      (fun nd => (nd.id, nd.inDegree, nd.outDegree)) = [("a", 0, 1)] ∧
    (_serialize_graph Gc10 ["b"]).edges = [] := by
  refine ⟨fun g sw => ?_, by decide, by decide⟩
  rw [List.all_eq_true]
  intro nd hnd
  obtain ⟨p, _, _, he⟩ := serialize_nodes_shape g sw nd hnd
  subst he
  simp [serialNode, Graph.inDeg, Graph.outDeg]

/-- C6.  No node whose lowercased id is in the stopword set appears in the node
list of any successful pipeline result: every success payload is produced by
`_serialize_graph` with the same stopword list, whose final defensive pass drops
such nodes regardless of their relevance score. -/
theorem C6_stopword_invariant (st : NlpState) (raw lt : String) (pat : Option String)
    (k : Nat) (sw : List String) (s : SerializedGraph)
    (h : run_phrase_net_analysis st raw lt pat k sw = .ok s) :
    (s.nodes.all (fun nd => !((sw.map strToLower).contains (strToLower nd.id)))) = true := by
  obtain ⟨g', rfl⟩ := run_ok_serialized h
  exact serialize_no_stopword g' sw

/-- Witness for C6: a concrete orthographic run with stopword `b`; the serialized
node list contains no stopword node. -/
theorem C6_stopword_invariant_witness :
    ((⟨[⟨"a", "a", 1, 3, 3, none⟩, ⟨"c", "c", 1, 1, 3, none⟩, ⟨"d", "d", 1, 2, 2, none⟩,
        ⟨"e", "e", 1, 3, 1, none⟩],
      [⟨"a", "c", 1, none⟩, ⟨"a", "d", 1, none⟩, ⟨"a", "e", 1, none⟩, ⟨"c", "d", 2, none⟩,
        ⟨"c", "e", 2, none⟩, ⟨"d", "e", 2, none⟩, ⟨"c", "a", 1, none⟩, ⟨"d", "a", 1, none⟩,
        ⟨"e", "a", 1, none⟩],
      4, 9⟩ : SerializedGraph).nodes.all
        (fun nd => !((["b"].map strToLower).contains (strToLower nd.id)))) = true :=
  C6_stopword_invariant (.absent none) "a b c d e a c" "orthographic" (some "x") 100
    ["b"] _ rfl

/-- C7.  The `pattern` parameter does not interfere with the analysis: for any two
non-empty patterns the orthographic pipeline produces identical results, because the
pattern is only checked for emptiness and never consulted by `_orthographic_linking`. -/
theorem C7_pattern_noninterference (st : NlpState) (raw : String) (k : Nat)
    (sw : List String) (p1 p2 : String) (h1 : p1 ≠ "") (h2 : p2 ≠ "") :
    run_phrase_net_analysis st raw "orthographic" (some p1) k sw =
      run_phrase_net_analysis st raw "orthographic" (some p2) k sw := by
  have e1 : (p1 = "") = False := by simp [h1]
  have e2 : (p2 = "") = False := by simp [h2]
  simp only [run_phrase_net_analysis, _orthographic_linking, e1, e2, if_false]

/-- Witness for C7: two concrete distinct non-empty patterns give the same result. -/
theorem C7_pattern_noninterference_witness :
    ("x" : String) ≠ "" ∧ ("yz" : String) ≠ "" ∧
    run_phrase_net_analysis (.absent none) "a b" "orthographic" (some "x") 5 [] =
      run_phrase_net_analysis (.absent none) "a b" "orthographic" (some "yz") 5 [] :=
  ⟨by decide, by decide,
    C7_pattern_noninterference (.absent none) "a b" 5 [] "x" "yz" (by decide) (by decide)⟩

/-! ### Edge-weight conservation through compression (C4) -/

theorem ensureNode_edges (g : Graph) (n : String) : (g.ensureNode n).edges = g.edges := by
  unfold Graph.ensureNode
  split <;> rfl

theorem addNodeAttr_edges (g : Graph) (n : String) (d : NodeData) :
    (g.addNodeAttr n d).edges = g.edges := by
  unfold Graph.addNodeAttr
  split <;> rfl

theorem buildSupers_edges (g : Graph) (groups : List (List String)) :
    (buildSupers g groups).edges = [] := by
  suffices h : ∀ (gs : List (List String)) (acc : Graph),
      (gs.foldl (fun acc grp =>
        acc.addNodeAttr (superName grp) ⟨some (groupFreq g grp), some grp⟩) acc).edges =
        acc.edges by
    exact h groups ⟨[], []⟩
  intro gs
  induction gs with
  | nil => intro acc; rfl
  | cons grp rest ih =>
      intro acc
      rw [List.foldl_cons, ih, addNodeAttr_edges]

theorem weightSum_bumpEdgeList (es : List Edge) (u v : String) (w : Nat)
    (h : es.any (fun e => e.src == u && e.tgt == v) = true) :
    ((bumpEdgeList es u v w).map (fun e => e.weight)).sum =
      (es.map (fun e => e.weight)).sum + w := by
  induction es with
  | nil => simp at h
  | cons e es ih =>
      rcases e with ⟨s0, t0, w0, r0⟩
      by_cases hc : ((s0 == u) && (t0 == v)) = true
      · simp [bumpEdgeList, hc]
        omega
      · simp only [List.any_cons] at h
        simp only [hc, Bool.false_or] at h
        simp [bumpEdgeList, hc, ih h]
        omega

theorem weightSum_bumpEdge {g : Graph} {u v : String} (w : Nat)
    (h : g.hasEdge u v = true) :
    (g.bumpEdge u v w).weightSum = g.weightSum + w := by
  exact weightSum_bumpEdgeList g.edges u v w h

theorem weightSum_addEdgeG (g : Graph) (u v : String) (w : Nat) (r : Option String) :
    (g.addEdgeG u v w r).weightSum = g.weightSum + w := by
  unfold Graph.addEdgeG Graph.weightSum
  simp [ensureNode_edges]

theorem weightSum_compressStep (groups : List (List String)) (acc : Graph) (e : Edge) :
    (compressStep groups acc e).weightSum = acc.weightSum +
      (if nodeMapFn groups e.src = nodeMapFn groups e.tgt then 0 else e.weight) := by
  unfold compressStep
  by_cases huv : nodeMapFn groups e.src = nodeMapFn groups e.tgt
  · simp [huv]
  · by_cases hh : acc.hasEdge (nodeMapFn groups e.src) (nodeMapFn groups e.tgt) = true
    · simp [huv, hh, weightSum_bumpEdge e.weight hh]
    · simp [huv, hh, weightSum_addEdgeG]

theorem weightSum_compress_fold (groups : List (List String)) (es : List Edge) :
    ∀ acc : Graph, (es.foldl (compressStep groups) acc).weightSum =
      acc.weightSum + ((es.filter (fun e =>
        !(nodeMapFn groups e.src == nodeMapFn groups e.tgt))).map (fun e => e.weight)).sum := by
  induction es with
  | nil => intro acc; simp
  | cons e rest ih =>
      intro acc
      rw [List.foldl_cons, ih, weightSum_compressStep]
      by_cases huv : nodeMapFn groups e.src = nodeMapFn groups e.tgt
      · simp [huv]
      · have hbe : (nodeMapFn groups e.src == nodeMapFn groups e.tgt) = false := by
          simp [huv]
        simp [List.filter_cons, hbe, if_neg huv]
        omega

/-- C4.  Total edge weight is conserved through compression: the weight sum of the
compressed graph equals the weight sum of exactly those input edges whose endpoints
do not re-map to the same node (edges dropped as self-loops after re-mapping are
the only exclusion). -/
theorem C4_weight_conservation (g : Graph) (h : g.WF) :
    (_compress_edges g).weightSum =
      ((g.edges.filter (fun e =>
          !(nodeMapFn (groupPass g g.nodeIds) e.src ==
            nodeMapFn (groupPass g g.nodeIds) e.tgt))).map (fun e => e.weight)).sum := by
  unfold _compress_edges
  split
  · rename_i hemp
    rw [List.isEmpty_iff] at hemp
    have hed : g.edges = [] := by
      rcases hE : g.edges with _ | ⟨e, es⟩
      · rfl
      · have hs := (h.2.2 e (by rw [hE]; exact List.mem_cons_self e es)).1
        rw [Graph.nodeIds, hemp] at hs
        simp at hs
    rw [Graph.weightSum, hed]
    simp
  · rw [weightSum_compress_fold]
    rw [Graph.weightSum, buildSupers_edges]
    simp

/-- Witness for C4 on `Gw4`: a graph with a genuine merge and a dropped self-loop. -/
theorem C4_weight_conservation_witness :
    Gw4.WF ∧
    (_compress_edges Gw4).weightSum =
      ((Gw4.edges.filter (fun e =>
          !(nodeMapFn (groupPass Gw4 Gw4.nodeIds) e.src ==
            nodeMapFn (groupPass Gw4 Gw4.nodeIds) e.tgt))).map (fun e => e.weight)).sum :=
  ⟨by decide, C4_weight_conservation Gw4 (by decide)⟩

/-! ### Relevance-filter bounds (C5) -/

theorem nodup_length_le_of_subset {α : Type} [DecidableEq α] (l s : List α)
    (hn : l.Nodup) (hs : ∀ x ∈ l, x ∈ s) : l.length ≤ s.length := by
  calc l.length = l.toFinset.card := (List.toFinset_card_of_nodup hn).symm
  _ ≤ s.toFinset.card := Finset.card_le_card (fun x hx => by
      rw [List.mem_toFinset] at hx ⊢
      exact hs x hx)
  _ ≤ s.length := s.toFinset_card_le

theorem selectPass1_length (k : Nat) : ∀ (l : List (String × Nat)) (acc : List String),
    acc.length ≤ k → ((selectPass1 k l acc).1).length ≤ k := by
  intro l
  induction l with
  | nil => intro acc h; exact h
  | cons p rest ih =>
      intro acc h
      rcases p with ⟨n, s⟩
      have hstep : (acc ++ [n]).length ≤ k ∨ ¬acc.length < k := by
        by_cases hlt : acc.length < k
        · left
          rw [List.length_append, List.length_cons, List.length_nil]
          omega
        · right; exact hlt
      by_cases hlt : acc.length < k
      · by_cases hsn : strStartsWith n "SUPER_NODE:" = true
        · simp only [selectPass1, if_pos hlt, hsn, if_true]
          exact ih acc h
        · rw [Bool.not_eq_true] at hsn
          simp only [selectPass1, if_pos hlt, hsn, Bool.false_eq_true, if_false]
          rcases hstep with hs | hs
          · exact ih (acc ++ [n]) hs
          · exact absurd hlt hs
      · simp only [selectPass1, if_neg hlt]
        exact h

theorem selectPass2_length (k : Nat) : ∀ (l : List (String × Nat)) (acc : List String),
    acc.length ≤ k → (selectPass2 k l acc).length ≤ k := by
  intro l
  induction l with
  | nil => intro acc h; exact h
  | cons p rest ih =>
      intro acc h
      rcases p with ⟨n, s⟩
      by_cases hlt : acc.length < k
      · simp only [selectPass2, if_pos hlt]
        apply ih (acc ++ [n])
        rw [List.length_append, List.length_cons, List.length_nil]
        omega
      · simp only [selectPass2, if_neg hlt]
        exact h

theorem subgraphOn_remove_length_le (temp : Graph) (sel rem : List String)
    (h : temp.nodeIds.Nodup) :
    (removeNodesG (subgraphOn temp sel) rem).nodes.length ≤ sel.length := by
  have h1 : (removeNodesG (subgraphOn temp sel) rem).nodes.length ≤
      (subgraphOn temp sel).nodes.length := List.length_filter_le _ _
  have h2 : (subgraphOn temp sel).nodes.length ≤ sel.length := by
    have hnd : ((subgraphOn temp sel).nodes.map Prod.fst).Nodup :=
      h.sublist ((List.filter_sublist _).map Prod.fst)
    have hsub : ∀ x ∈ (subgraphOn temp sel).nodes.map Prod.fst, x ∈ sel := by
      intro x hx
      simp only [subgraphOn, List.mem_map, List.mem_filter] at hx
      obtain ⟨nd, ⟨_, hc⟩, rfl⟩ := hx
      exact List.mem_of_elem_eq_true hc
    calc (subgraphOn temp sel).nodes.length
        = ((subgraphOn temp sel).nodes.map Prod.fst).length := (List.length_map _ _).symm
    _ ≤ sel.length := nodup_length_le_of_subset _ sel hnd hsub
  exact Nat.le_trans h1 h2

theorem removeIsolates_keeps_incident (g0 : Graph) :
    ∀ n ∈ (removeNodesG g0 (g0.nodeIds.filter (fun m => !(g0.hasIncident m)))).nodeIds,
      (removeNodesG g0 (g0.nodeIds.filter (fun m => !(g0.hasIncident m)))).hasIncident n
        = true := by
  intro n hn
  simp only [removeNodesG, Graph.nodeIds, List.mem_map, List.mem_filter] at hn
  obtain ⟨nd, ⟨hmem, hkeep⟩, rfl⟩ := hn
  simp at hkeep
  have hinc : g0.hasIncident nd.1 = true := hkeep nd.2 (by rw [Prod.mk.eta]; exact hmem)
  obtain ⟨e, he, hor⟩ := hasIncident_iff.mp hinc
  have hsinc : g0.hasIncident e.src = true := hasIncident_iff.mpr ⟨e, he, Or.inl rfl⟩
  have htinc : g0.hasIncident e.tgt = true := hasIncident_iff.mpr ⟨e, he, Or.inr rfl⟩
  apply hasIncident_iff.mpr
  refine ⟨e, ?_, hor⟩
  simp only [removeNodesG, List.mem_filter]
  refine ⟨he, ?_⟩
  simp [hsinc, htinc]

/-- C5.  For every well-formed input graph, every stopword set and every
`max_nodes`, the relevance filter returns at most `max_nodes` nodes and no isolated
node: every returned node keeps at least one incident edge after the final
degree-zero cleanup pass. -/
theorem filter_result_length (temp : Graph) (sel rem : List String) (k : Nat)
    (hnd : temp.nodeIds.Nodup) (hsel : sel.length ≤ k) :
    (removeNodesG (subgraphOn temp sel) rem).nodes.length ≤ k :=
  Nat.le_trans (subgraphOn_remove_length_le temp sel rem hnd) hsel

theorem removeNodesG_nodeIds_nodup (g : Graph) (rem : List String)
    (h : g.nodeIds.Nodup) : (removeNodesG g rem).nodeIds.Nodup :=
  h.sublist ((List.filter_sublist _).map Prod.fst)

/-- C5.  For every well-formed input graph, every stopword set and every
`max_nodes`, the relevance filter returns at most `max_nodes` nodes and no isolated
node: every returned node keeps at least one incident edge after the final
degree-zero cleanup pass. -/
theorem C5_filter_bound_no_isolates (g : Graph) (max_nodes : Nat)
    (stopwords : List String) (h : g.WF) :
    (_filter_network g max_nodes stopwords).nodes.length ≤ max_nodes ∧
    ∀ n ∈ (_filter_network g max_nodes stopwords).nodeIds,
      (_filter_network g max_nodes stopwords).hasIncident n = true := by
  constructor
  · exact filter_result_length _ _ _ max_nodes
      (removeNodesG_nodeIds_nodup g _ h.1)
      (selectPass2_length max_nodes _ _
        (selectPass1_length max_nodes _ [] (Nat.zero_le _)))
  · exact removeIsolates_keeps_incident _

/-- Witness for C5: on `Gw5` with `max_nodes = 1` the filter keeps at most one
node (in fact zero: the one selected node became isolated and was cleaned up). -/
theorem C5_filter_bound_no_isolates_witness :
    Gw5.WF ∧ (_filter_network Gw5 1 []).nodes.length ≤ 1 :=
  ⟨by decide, (C5_filter_bound_no_isolates Gw5 1 [] (by decide)).1⟩

/-! ### Super-node name arithmetic (towards C2) -/

theorem pipe_data : ("|" : String).data = ['|'] := rfl

theorem joinPipe_cons_cons (a b : String) (t : List String) :
    joinPipe (a :: b :: t) = a ++ "|" ++ joinPipe (b :: t) := rfl

theorem data_joinPipe_cons_cons (a b : String) (t : List String) :
    (joinPipe (a :: b :: t)).data = a.data ++ '|' :: (joinPipe (b :: t)).data := by
  rw [joinPipe_cons_cons, String.data_append, String.data_append, pipe_data]
  simp

theorem pipe_mem_joinPipe (a b : String) (t : List String) :
    '|' ∈ (joinPipe (a :: b :: t)).data := by
  rw [data_joinPipe_cons_cons]
  simp

theorem splitPipe : ∀ (x1 x2 r1 r2 : List Char), '|' ∉ x1 → '|' ∉ x2 →
    x1 ++ '|' :: r1 = x2 ++ '|' :: r2 → x1 = x2 ∧ r1 = r2 := by
  intro x1
  induction x1 with
  | nil =>
      intro x2 r1 r2 _ h2 he
      cases x2 with
      | nil =>
          simp only [List.nil_append] at he
          exact ⟨rfl, (List.cons.inj he).2⟩
      | cons c cs =>
          simp only [List.nil_append, List.cons_append] at he
          obtain ⟨hc, _⟩ := List.cons.inj he
          exact absurd (hc ▸ List.mem_cons_self c cs) h2
  | cons c cs ih =>
      intro x2 r1 r2 h1 h2 he
      cases x2 with
      | nil =>
          simp only [List.cons_append, List.nil_append] at he
          obtain ⟨hc, _⟩ := List.cons.inj he
          exact absurd (hc ▸ List.mem_cons_self c cs) h1
      | cons d ds =>
          simp only [List.cons_append] at he
          obtain ⟨hcd, htl⟩ := List.cons.inj he
          have h1' : '|' ∉ cs := fun hm => h1 (List.mem_cons_of_mem c hm)
          have h2' : '|' ∉ ds := fun hm => h2 (List.mem_cons_of_mem d hm)
          obtain ⟨hq, hr⟩ := ih ds r1 r2 h1' h2' htl
          exact ⟨by rw [hcd, hq], hr⟩

theorem joinPipe_inj_aux : ∀ (l1 l2 : List String), l1 ≠ [] → l2 ≠ [] →
    (∀ s ∈ l1, '|' ∉ s.data) → (∀ s ∈ l2, '|' ∉ s.data) →
    joinPipe l1 = joinPipe l2 → l1 = l2 := by
  intro l1
  induction l1 with
  | nil => intro l2 h; exact absurd rfl h
  | cons a t1 ih =>
      intro l2 _ h2ne hp1 hp2 he
      cases l2 with
      | nil => exact absurd rfl h2ne
      | cons a2 t2 =>
          cases t1 with
          | nil =>
              cases t2 with
              | nil =>
                  have : a = a2 := he
                  rw [this]
              | cons b2 t2' =>
                  exfalso
                  have hp : '|' ∈ (joinPipe (a2 :: b2 :: t2')).data :=
                    pipe_mem_joinPipe _ _ _
                  rw [← he] at hp
                  exact hp1 a (List.mem_cons_self a []) hp
          | cons b1 t1' =>
              cases t2 with
              | nil =>
                  exfalso
                  have hp : '|' ∈ (joinPipe (a :: b1 :: t1')).data :=
                    pipe_mem_joinPipe _ _ _
                  rw [he] at hp
                  exact hp2 a2 (List.mem_cons_self a2 []) hp
              | cons b2 t2' =>
                  have hd := congrArg String.data he
                  rw [data_joinPipe_cons_cons, data_joinPipe_cons_cons] at hd
                  obtain ⟨hae, hre⟩ := splitPipe a.data a2.data _ _
                    (hp1 a (List.mem_cons_self a _)) (hp2 a2 (List.mem_cons_self a2 _)) hd
                  have ha : a = a2 := String.ext hae
                  have hrest : joinPipe (b1 :: t1') = joinPipe (b2 :: t2') :=
                    String.ext hre
                  have htl := ih (b2 :: t2') (by simp) (by simp)
                    (fun s hs => hp1 s (List.mem_cons_of_mem a hs))
                    (fun s hs => hp2 s (List.mem_cons_of_mem a2 hs)) hrest
                  rw [ha, htl]

theorem superName_data (grp : List String) :
    (superName grp).data = ("SUPER_NODE:" : String).data ++ (joinPipe grp).data := by
  rw [superName, String.data_append]

theorem pipe_mem_superName : ∀ {grp : List String}, 2 ≤ grp.length →
    '|' ∈ (superName grp).data := by
  intro grp h
  match grp, h with
  | a :: b :: t, _ =>
      rw [superName_data]
      exact List.mem_append_right _ (pipe_mem_joinPipe a b t)

theorem superName_ne_of_pipeFree {grp : List String} {n : String} (h2 : 2 ≤ grp.length)
    (hn : '|' ∉ n.data) : superName grp ≠ n := by
  intro he
  exact hn (he ▸ pipe_mem_superName h2)

theorem superName_inj {g1 g2 : List String} (h1 : 2 ≤ g1.length) (h2 : 2 ≤ g2.length)
    (hp1 : ∀ s ∈ g1, '|' ∉ s.data) (hp2 : ∀ s ∈ g2, '|' ∉ s.data)
    (he : superName g1 = superName g2) : g1 = g2 := by
  have hd := congrArg String.data he
  rw [superName_data, superName_data] at hd
  have hjoin : (joinPipe g1).data = (joinPipe g2).data := List.append_cancel_left hd
  refine joinPipe_inj_aux g1 g2 ?_ ?_ hp1 hp2 (String.ext hjoin)
  · rintro rfl; simp at h1
  · rintro rfl; simp at h2

/-! ### Partition-loop facts (towards C2) -/

theorem sameNbhd_refl (g : Graph) (a : String) : sameNbhd g a a = true :=
  sameNbhd_iff.mpr (EquivN_refl g a)

theorem sameNbhd_symm {g : Graph} {a b : String} (h : sameNbhd g a b = true) :
    sameNbhd g b a = true :=
  sameNbhd_iff.mpr (EquivN_symm (sameNbhd_iff.mp h))

theorem sameNbhd_trans {g : Graph} {a b c : String} (h1 : sameNbhd g a b = true)
    (h2 : sameNbhd g b c = true) : sameNbhd g a c = true :=
  sameNbhd_iff.mpr (EquivN_trans (sameNbhd_iff.mp h1) (sameNbhd_iff.mp h2))

theorem rest_length_le {α : Type} {n : α} {rest : List α} {fuel : Nat}
    (hl : (n :: rest).length ≤ fuel + 1) (p : α → Bool) :
    (rest.filter p).length ≤ fuel := by
  rw [List.length_cons] at hl
  exact Nat.le_trans (List.length_filter_le _ _) (Nat.succ_le_succ_iff.mp hl)

theorem groupPassF_sub (g : Graph) : ∀ (fuel : Nat) (l : List String),
    l.length ≤ fuel → ∀ grp ∈ groupPassF g fuel l, ∀ a ∈ grp, a ∈ l := by
  intro fuel
  induction fuel with
  | zero =>
      intro l hl grp hg a ha
      cases l with
      | nil => simp [groupPassF] at hg
      | cons n rest => simp at hl
  | succ fuel ih =>
      intro l hl grp hg a ha
      cases l with
      | nil => simp [groupPassF] at hg
      | cons n rest =>
          simp only [groupPassF] at hg
          split at hg
          · have := ih (rest.filter (fun m => !(sameNbhd g n m))) (rest_length_le hl _)
              grp hg a ha
            exact List.mem_cons_of_mem n (List.mem_of_mem_filter this)
          · rcases List.mem_cons.mp hg with rfl | hg2
            · rcases List.mem_cons.mp ha with rfl | ha2
              · exact List.mem_cons_self a rest
              · exact List.mem_cons_of_mem n (List.mem_of_mem_filter ha2)
            · have := ih (rest.filter (fun m => !(sameNbhd g n m))) (rest_length_le hl _)
                grp hg2 a ha
              exact List.mem_cons_of_mem n (List.mem_of_mem_filter this)

theorem groupPassF_two_le (g : Graph) : ∀ (fuel : Nat) (l : List String),
    l.length ≤ fuel → ∀ grp ∈ groupPassF g fuel l, 2 ≤ grp.length := by
  intro fuel
  induction fuel with
  | zero =>
      intro l hl grp hg
      cases l with
      | nil => simp [groupPassF] at hg
      | cons n rest => simp at hl
  | succ fuel ih =>
      intro l hl grp hg
      cases l with
      | nil => simp [groupPassF] at hg
      | cons n rest =>
          simp only [groupPassF] at hg
          split at hg
          · exact ih _ (rest_length_le hl _) grp hg
          · rcases List.mem_cons.mp hg with rfl | hg2
            · rename_i hne
              rw [List.isEmpty_iff] at hne
              have : 0 < (rest.filter (fun m => sameNbhd g n m)).length :=
                List.length_pos.mpr hne
              rw [List.length_cons]
              omega
            · exact ih _ (rest_length_le hl _) grp hg2

theorem groupPassF_equiv (g : Graph) : ∀ (fuel : Nat) (l : List String),
    l.length ≤ fuel → ∀ grp ∈ groupPassF g fuel l, ∀ a ∈ grp, ∀ b ∈ grp,
      sameNbhd g a b = true := by
  intro fuel
  induction fuel with
  | zero =>
      intro l hl grp hg
      cases l with
      | nil => simp [groupPassF] at hg
      | cons n rest => simp at hl
  | succ fuel ih =>
      intro l hl grp hg a ha b hb
      cases l with
      | nil => simp [groupPassF] at hg
      | cons n rest =>
          simp only [groupPassF] at hg
          split at hg
          · exact ih _ (rest_length_le hl _) grp hg a ha b hb
          · rcases List.mem_cons.mp hg with rfl | hg2
            · have hn : ∀ x, x ∈ n :: rest.filter (fun m => sameNbhd g n m) →
                  sameNbhd g n x = true := by
                intro x hx
                rcases List.mem_cons.mp hx with rfl | hx2
                · exact sameNbhd_refl g x
                · exact (List.mem_filter.mp hx2).2
              exact sameNbhd_trans (sameNbhd_symm (hn a ha)) (hn b hb)
            · exact ih _ (rest_length_le hl _) grp hg2 a ha b hb

theorem groupPassF_disjoint (g : Graph) : ∀ (fuel : Nat) (l : List String),
    l.length ≤ fuel → l.Nodup →
    (groupPassF g fuel l).Pairwise (fun g1 g2 => ∀ x ∈ g1, x ∉ g2) := by
  intro fuel
  induction fuel with
  | zero =>
      intro l hl hnd
      cases l with
      | nil => simp [groupPassF]
      | cons n rest => simp at hl
  | succ fuel ih =>
      intro l hl hnd
      cases l with
      | nil => simp [groupPassF]
      | cons n rest =>
          have hndr : rest.Nodup := (List.nodup_cons.mp hnd).2
          have hnn : n ∉ rest := (List.nodup_cons.mp hnd).1
          simp only [groupPassF]
          split
          · exact ih _ (rest_length_le hl _) (hndr.filter _)
          · refine List.Pairwise.cons ?_ (ih _ (rest_length_le hl _) (hndr.filter _))
            intro grp2 hg2 x hx hx2
            have hx2sub : x ∈ rest.filter (fun m => !(sameNbhd g n m)) :=
              groupPassF_sub g fuel _ (rest_length_le hl _) grp2 hg2 x hx2
            have hxns : (!(sameNbhd g n x)) = true := (List.mem_filter.mp hx2sub).2
            rcases List.mem_cons.mp hx with rfl | hxms
            · exact hnn (List.mem_of_mem_filter hx2sub)
            · have : sameNbhd g n x = true := (List.mem_filter.mp hxms).2
              rw [this] at hxns
              simp at hxns

theorem groupPassF_nodup (g : Graph) : ∀ (fuel : Nat) (l : List String),
    l.length ≤ fuel → l.Nodup → ∀ grp ∈ groupPassF g fuel l, grp.Nodup := by
  intro fuel
  induction fuel with
  | zero =>
      intro l hl hnd grp hg
      cases l with
      | nil => simp [groupPassF] at hg
      | cons n rest => simp at hl
  | succ fuel ih =>
      intro l hl hnd grp hg
      cases l with
      | nil => simp [groupPassF] at hg
      | cons n rest =>
          have hndr : rest.Nodup := (List.nodup_cons.mp hnd).2
          have hnn : n ∉ rest := (List.nodup_cons.mp hnd).1
          simp only [groupPassF] at hg
          split at hg
          · exact ih _ (rest_length_le hl _) (hndr.filter _) grp hg
          · rcases List.mem_cons.mp hg with rfl | hg2
            · refine List.nodup_cons.mpr ⟨?_, hndr.filter _⟩
              intro hbad
              exact hnn (List.mem_of_mem_filter hbad)
            · exact ih _ (rest_length_le hl _) (hndr.filter _) grp hg2

theorem groupPassF_complete (g : Graph) : ∀ (fuel : Nat) (l : List String),
    l.length ≤ fuel → l.Nodup → ∀ a ∈ l, ∀ b ∈ l, a ≠ b → sameNbhd g a b = true →
      ∃ grp ∈ groupPassF g fuel l, a ∈ grp ∧ b ∈ grp := by
  intro fuel
  induction fuel with
  | zero =>
      intro l hl hnd a ha
      cases l with
      | nil => simp at ha
      | cons n rest => simp at hl
  | succ fuel ih =>
      intro l hl hnd a ha b hb hne hsame
      cases l with
      | nil => simp at ha
      | cons n rest =>
          have hndr : rest.Nodup := (List.nodup_cons.mp hnd).2
          have hnn : n ∉ rest := (List.nodup_cons.mp hnd).1
          simp only [groupPassF]
          rcases List.mem_cons.mp ha with rfl | ha2
          · have hbr : b ∈ rest := by
              rcases List.mem_cons.mp hb with rfl | hb2
              · exact absurd rfl hne
              · exact hb2
            have hbm : b ∈ rest.filter (fun m => sameNbhd g a m) :=
              List.mem_filter.mpr ⟨hbr, hsame⟩
            have hnemp : (rest.filter (fun m => sameNbhd g a m)).isEmpty = false := by
              rcases hme : rest.filter (fun m => sameNbhd g a m) with _ | _
              · rw [hme] at hbm; simp at hbm
              · rfl
            rw [hnemp]
            simp only [Bool.false_eq_true, if_false]
            exact ⟨a :: rest.filter (fun m => sameNbhd g a m),
              List.mem_cons_self _ _, List.mem_cons_self _ _,
              List.mem_cons_of_mem a hbm⟩
          · rcases List.mem_cons.mp hb with rfl | hb2
            · have ham : a ∈ rest.filter (fun m => sameNbhd g b m) :=
                List.mem_filter.mpr ⟨ha2, sameNbhd_symm hsame⟩
              have hnemp : (rest.filter (fun m => sameNbhd g b m)).isEmpty = false := by
                rcases hme : rest.filter (fun m => sameNbhd g b m) with _ | _
                · rw [hme] at ham; simp at ham
                · rfl
              rw [hnemp]
              simp only [Bool.false_eq_true, if_false]
              exact ⟨b :: rest.filter (fun m => sameNbhd g b m),
                List.mem_cons_self _ _,
                List.mem_cons_of_mem b ham, List.mem_cons_self _ _⟩
            · by_cases hms : sameNbhd g n a = true
              · have hbms : sameNbhd g n b = true := sameNbhd_trans hms hsame
                have hmem : a ∈ rest.filter (fun m => sameNbhd g n m) :=
                  List.mem_filter.mpr ⟨ha2, hms⟩
                have hbmem : b ∈ rest.filter (fun m => sameNbhd g n m) :=
                  List.mem_filter.mpr ⟨hb2, hbms⟩
                have hnemp : (rest.filter (fun m => sameNbhd g n m)).isEmpty = false := by
                  rcases hme : rest.filter (fun m => sameNbhd g n m) with _ | _
                  · rw [hme] at hmem; simp at hmem
                  · rfl
                rw [hnemp]
                simp only [Bool.false_eq_true, if_false]
                exact ⟨n :: rest.filter (fun m => sameNbhd g n m),
                  List.mem_cons_self _ _, List.mem_cons_of_mem n hmem,
                  List.mem_cons_of_mem n hbmem⟩
              · have hbns : ¬(sameNbhd g n b = true) := by
                  intro hbs
                  exact hms (sameNbhd_trans hbs (sameNbhd_symm hsame))
                have hmem : a ∈ rest.filter (fun m => !(sameNbhd g n m)) :=
                  List.mem_filter.mpr ⟨ha2, by simp [hms]⟩
                have hbmem : b ∈ rest.filter (fun m => !(sameNbhd g n m)) :=
                  List.mem_filter.mpr ⟨hb2, by simp [hbns]⟩
                have hrec := ih (rest.filter (fun m => !(sameNbhd g n m)))
                  (rest_length_le hl _) (hndr.filter _) a hmem b hbmem hne hsame
                obtain ⟨grp, hgm, hag, hbg⟩ := hrec
                split
                · exact ⟨grp, hgm, hag, hbg⟩
                · exact ⟨grp, List.mem_cons_of_mem _ hgm, hag, hbg⟩

theorem groupPassF_nil_of_no_pair (g : Graph) : ∀ (fuel : Nat) (l : List String),
    l.length ≤ fuel → l.Nodup →
    (∀ a ∈ l, ∀ b ∈ l, a ≠ b → ¬(sameNbhd g a b = true)) →
    groupPassF g fuel l = [] := by
  intro fuel
  induction fuel with
  | zero =>
      intro l hl hnd hno
      cases l with
      | nil => simp [groupPassF]
      | cons n rest => simp at hl
  | succ fuel ih =>
      intro l hl hnd hno
      cases l with
      | nil => simp [groupPassF]
      | cons n rest =>
          have hndr : rest.Nodup := (List.nodup_cons.mp hnd).2
          have hnn : n ∉ rest := (List.nodup_cons.mp hnd).1
          have hms : rest.filter (fun m => sameNbhd g n m) = [] := by
            rw [List.filter_eq_nil_iff]
            intro m hm
            exact hno n (List.mem_cons_self n rest) m (List.mem_cons_of_mem n hm)
              (fun he => hnn (he ▸ hm)) ∘ id
          simp only [groupPassF, hms, List.isEmpty_nil, if_true]
          exact ih _ (rest_length_le hl _) (hndr.filter _)
            (fun a ha b hb hne => hno a (List.mem_cons_of_mem n (List.mem_of_mem_filter ha))
              b (List.mem_cons_of_mem n (List.mem_of_mem_filter hb)) hne)

theorem groupPass_sub (g : Graph) (l : List String) :
    ∀ grp ∈ groupPass g l, ∀ a ∈ grp, a ∈ l :=
  groupPassF_sub g l.length l (Nat.le_refl _)

theorem groupPass_two_le (g : Graph) (l : List String) :
    ∀ grp ∈ groupPass g l, 2 ≤ grp.length :=
  groupPassF_two_le g l.length l (Nat.le_refl _)

theorem groupPass_equiv (g : Graph) (l : List String) :
    ∀ grp ∈ groupPass g l, ∀ a ∈ grp, ∀ b ∈ grp, sameNbhd g a b = true :=
  groupPassF_equiv g l.length l (Nat.le_refl _)

theorem groupPass_disjoint (g : Graph) (l : List String) (hnd : l.Nodup) :
    (groupPass g l).Pairwise (fun g1 g2 => ∀ x ∈ g1, x ∉ g2) :=
  groupPassF_disjoint g l.length l (Nat.le_refl _) hnd

theorem groupPass_nodup (g : Graph) (l : List String) (hnd : l.Nodup) :
    ∀ grp ∈ groupPass g l, grp.Nodup :=
  groupPassF_nodup g l.length l (Nat.le_refl _) hnd

theorem groupPass_complete (g : Graph) (l : List String) (hnd : l.Nodup) :
    ∀ a ∈ l, ∀ b ∈ l, a ≠ b → sameNbhd g a b = true →
      ∃ grp ∈ groupPass g l, a ∈ grp ∧ b ∈ grp :=
  groupPassF_complete g l.length l (Nat.le_refl _) hnd

theorem groupPass_nil_of_no_pair (g : Graph) (l : List String) (hnd : l.Nodup)
    (hno : ∀ a ∈ l, ∀ b ∈ l, a ≠ b → ¬(sameNbhd g a b = true)) :
    groupPass g l = [] :=
  groupPassF_nil_of_no_pair g l.length l (Nat.le_refl _) hnd hno

/-! ### Node-map facts (towards C2) -/

theorem nodeMapFn_of_not_mem {groups : List (List String)} {n : String}
    (h : ∀ grp ∈ groups, n ∉ grp) : nodeMapFn groups n = n := by
  have hfind : groups.find? (fun grp => grp.contains n) = none := by
    rw [List.find?_eq_none]
    intro grp hgrp hc
    exact h grp hgrp (List.elem_iff.mp hc)
  rw [nodeMapFn, hfind]

theorem disjoint_symmetric :
    Symmetric (fun g1 g2 : List String => ∀ x ∈ g1, x ∉ g2) := by
  intro x y hxy a ha hay
  exact hxy a hay ha

theorem nodeMapFn_of_mem {groups : List (List String)} {grp : List String} {n : String}
    (hdisj : groups.Pairwise (fun g1 g2 => ∀ x ∈ g1, x ∉ g2))
    (hg : grp ∈ groups) (hn : n ∈ grp) : nodeMapFn groups n = superName grp := by
  rcases hfind : groups.find? (fun grp => grp.contains n) with _ | grp2
  · exfalso
    rw [List.find?_eq_none] at hfind
    exact hfind grp hg (List.elem_iff.mpr hn)
  · have hmem2 : grp2 ∈ groups := List.mem_of_find?_eq_some hfind
    have hn2 : n ∈ grp2 := List.elem_iff.mp (List.find?_some hfind)
    have hgg : grp2 = grp := by
      by_contra hne
      exact List.Pairwise.forall disjoint_symmetric hdisj hmem2 hg hne n hn2 hn
    rw [nodeMapFn, hfind, hgg]

theorem nodeMapFn_grouped_or_fixed (groups : List (List String)) (n : String) :
    (∃ grp ∈ groups, n ∈ grp) ∨ nodeMapFn groups n = n := by
  by_cases h : ∃ grp ∈ groups, n ∈ grp
  · exact Or.inl h
  · push_neg at h
    exact Or.inr (nodeMapFn_of_not_mem h)

theorem group_pipeFree {g : Graph} (hPF : g.PipeFree) {grp : List String}
    (hg : grp ∈ groupPass g g.nodeIds) : ∀ s ∈ grp, '|' ∉ s.data :=
  fun s hs => hPF s (groupPass_sub g g.nodeIds grp hg s hs)

theorem kappa_eq_iff {g : Graph} (hWF : g.WF) (hPF : g.PipeFree) {a b : String}
    (ha : a ∈ g.nodeIds) (hb : b ∈ g.nodeIds) :
    nodeMapFn (groupPass g g.nodeIds) a = nodeMapFn (groupPass g g.nodeIds) b ↔
      a = b ∨ sameNbhd g a b = true := by
  have hdisj := groupPass_disjoint g g.nodeIds hWF.1
  constructor
  · intro he
    rcases nodeMapFn_grouped_or_fixed (groupPass g g.nodeIds) a with ⟨ga, hga, hain⟩ | hfa
    · rcases nodeMapFn_grouped_or_fixed (groupPass g g.nodeIds) b with ⟨gb, hgb, hbin⟩ | hfb
      · rw [nodeMapFn_of_mem hdisj hga hain, nodeMapFn_of_mem hdisj hgb hbin] at he
        have : ga = gb := superName_inj (groupPass_two_le g _ ga hga)
          (groupPass_two_le g _ gb hgb) (group_pipeFree hPF hga)
          (group_pipeFree hPF hgb) he
        subst this
        exact Or.inr (groupPass_equiv g g.nodeIds ga hga a hain b hbin)
      · rw [nodeMapFn_of_mem hdisj hga hain, hfb] at he
        exact absurd he (superName_ne_of_pipeFree (groupPass_two_le g _ ga hga) (hPF b hb))
    · rcases nodeMapFn_grouped_or_fixed (groupPass g g.nodeIds) b with ⟨gb, hgb, hbin⟩ | hfb
      · rw [hfa, nodeMapFn_of_mem hdisj hgb hbin] at he
        exact absurd he.symm
          (superName_ne_of_pipeFree (groupPass_two_le g _ gb hgb) (hPF a ha))
      · rw [hfa, hfb] at he
        exact Or.inl he
  · rintro (rfl | hsame)
    · rfl
    · by_cases hab : a = b
      · rw [hab]
      · obtain ⟨grp, hgm, hag, hbg⟩ :=
          groupPass_complete g g.nodeIds hWF.1 a ha b hb hab hsame
        rw [nodeMapFn_of_mem hdisj hgm hag, nodeMapFn_of_mem hdisj hgm hbg]

/-! ### Edge re-mapping fold facts (towards C2) -/

theorem EM_iff_pair_mem {g : Graph} {x y : String} :
    g.EM x y ↔ (x, y) ∈ g.edges.map (fun e => (e.src, e.tgt)) := by
  simp only [Graph.EM, List.mem_map, Prod.mk.injEq]

theorem bumpEdgeList_pairs : ∀ (es : List Edge) (u v : String) (w : Nat),
    (bumpEdgeList es u v w).map (fun e => (e.src, e.tgt)) =
      es.map (fun e => (e.src, e.tgt)) := by
  intro es u v w
  induction es with
  | nil => rfl
  | cons e es ih =>
      rcases e with ⟨s0, t0, w0, r0⟩
      by_cases hc : ((s0 == u) && (t0 == v)) = true
      · simp [bumpEdgeList, hc]
      · simp [bumpEdgeList, hc, ih]

theorem EM_bumpEdge {g : Graph} {u v x y : String} {w : Nat} :
    (g.bumpEdge u v w).EM x y ↔ g.EM x y := by
  rw [EM_iff_pair_mem, EM_iff_pair_mem]
  show (x, y) ∈ (bumpEdgeList g.edges u v w).map (fun e => (e.src, e.tgt)) ↔ _
  rw [bumpEdgeList_pairs]

theorem EM_addEdgeG {g : Graph} {u v x y : String} {w : Nat} {r : Option String} :
    (g.addEdgeG u v w r).EM x y ↔ g.EM x y ∨ (u = x ∧ v = y) := by
  simp only [Graph.addEdgeG, Graph.EM, ensureNode_edges, List.mem_append,
    List.mem_singleton]
  constructor
  · rintro ⟨e, he | rfl, hs, ht⟩
    · exact Or.inl ⟨e, he, hs, ht⟩
    · exact Or.inr ⟨hs, ht⟩
  · rintro (⟨e, he, hs, ht⟩ | ⟨hu, hv⟩)
    · exact ⟨e, Or.inl he, hs, ht⟩
    · exact ⟨⟨u, v, w, r⟩, Or.inr rfl, hu, hv⟩

theorem EM_compressStep {groups : List (List String)} {acc : Graph} {e : Edge}
    {x y : String} :
    (compressStep groups acc e).EM x y ↔ acc.EM x y ∨
      (nodeMapFn groups e.src = x ∧ nodeMapFn groups e.tgt = y ∧ x ≠ y) := by
  simp only [compressStep]
  by_cases huv : nodeMapFn groups e.src = nodeMapFn groups e.tgt
  · rw [if_pos huv]
    constructor
    · exact Or.inl
    · rintro (h | ⟨rfl, rfl, hne⟩)
      · exact h
      · exact absurd huv hne
  · rw [if_neg huv]
    by_cases hh : acc.hasEdge (nodeMapFn groups e.src) (nodeMapFn groups e.tgt) = true
    · rw [if_pos hh, EM_bumpEdge]
      constructor
      · exact Or.inl
      · rintro (h | ⟨rfl, rfl, hne⟩)
        · exact h
        · exact hasEdge_iff.mp hh
    · rw [if_neg hh, EM_addEdgeG]
      constructor
      · rintro (h | ⟨rfl, rfl⟩)
        · exact Or.inl h
        · exact Or.inr ⟨rfl, rfl, huv⟩
      · rintro (h | ⟨rfl, rfl, hne⟩)
        · exact Or.inl h
        · exact Or.inr ⟨rfl, rfl⟩

theorem EM_compress_fold (groups : List (List String)) (es : List Edge) :
    ∀ (acc : Graph) (x y : String),
      ((es.foldl (compressStep groups) acc).EM x y ↔ acc.EM x y ∨
        ∃ e ∈ es, nodeMapFn groups e.src = x ∧ nodeMapFn groups e.tgt = y ∧ x ≠ y) := by
  induction es with
  | nil => intro acc x y; simp
  | cons e rest ih =>
      intro acc x y
      rw [List.foldl_cons, ih, EM_compressStep]
      constructor
      · rintro ((h | hE) | ⟨e2, he2, h3⟩)
        · exact Or.inl h
        · exact Or.inr ⟨e, List.mem_cons_self _ _, hE⟩
        · exact Or.inr ⟨e2, List.mem_cons_of_mem _ he2, h3⟩
      · rintro (h | ⟨e2, he2, h3⟩)
        · exact Or.inl (Or.inl h)
        · rcases List.mem_cons.mp he2 with rfl | hr
          · exact Or.inl (Or.inr h3)
          · exact Or.inr ⟨e2, hr, h3⟩

theorem ensureNode_nodeIds_mem {g : Graph} {n x : String} :
    x ∈ (g.ensureNode n).nodeIds ↔ x ∈ g.nodeIds ∨ x = n := by
  unfold Graph.ensureNode
  split
  · rename_i hh
    rw [hasNode_iff] at hh
    constructor
    · exact Or.inl
    · rintro (h | rfl)
      · exact h
      · exact hh
  · simp [Graph.nodeIds]

theorem addEdgeG_nodeIds_mem {g : Graph} {u v x : String} {w : Nat} {r : Option String} :
    x ∈ (g.addEdgeG u v w r).nodeIds ↔ x ∈ g.nodeIds ∨ x = u ∨ x = v := by
  show x ∈ ((g.ensureNode u).ensureNode v).nodeIds ↔ _
  rw [ensureNode_nodeIds_mem, ensureNode_nodeIds_mem]
  tauto

theorem pairs_imp {es' es : List Edge} (P : String → String → Prop)
    (h : es'.map (fun e => (e.src, e.tgt)) = es.map (fun e => (e.src, e.tgt)))
    (hP : ∀ e ∈ es, P e.src e.tgt) :
    ∀ e' ∈ es', P e'.src e'.tgt := by
  intro e' he'
  have hm : (e'.src, e'.tgt) ∈ es'.map (fun e => (e.src, e.tgt)) :=
    List.mem_map.mpr ⟨e', he', rfl⟩
  rw [h] at hm
  obtain ⟨e, he, hpe⟩ := List.mem_map.mp hm
  obtain ⟨h1, h2⟩ := Prod.mk.inj hpe
  rw [← h1, ← h2]
  exact hP e he

theorem compressStep_nodeIds_mono {groups : List (List String)} {acc : Graph} {e : Edge}
    {x : String} (h : x ∈ acc.nodeIds) : x ∈ (compressStep groups acc e).nodeIds := by
  simp only [compressStep]
  split
  · exact h
  · split
    · exact h
    · exact addEdgeG_nodeIds_mem.mpr (Or.inl h)

theorem compressStep_closed {groups : List (List String)} {acc : Graph} {e : Edge}
    (h : acc.Closed) : (compressStep groups acc e).Closed := by
  simp only [compressStep]
  split
  · exact h
  · split
    · intro e' he'
      have hp : ∀ e2 ∈ acc.edges, e2.src ∈ acc.nodeIds ∧ e2.tgt ∈ acc.nodeIds := h
      exact pairs_imp (fun s t => s ∈ acc.nodeIds ∧ t ∈ acc.nodeIds)
        (bumpEdgeList_pairs acc.edges _ _ _) hp e' he'
    · intro e' he'
      rcases List.mem_append.mp (by
          simpa only [Graph.addEdgeG, ensureNode_edges] using he') with hm | hm
      · obtain ⟨h1, h2⟩ := h e' hm
        exact ⟨addEdgeG_nodeIds_mem.mpr (Or.inl h1), addEdgeG_nodeIds_mem.mpr (Or.inl h2)⟩
      · rw [List.mem_singleton] at hm
        subst hm
        exact ⟨addEdgeG_nodeIds_mem.mpr (Or.inr (Or.inl rfl)),
          addEdgeG_nodeIds_mem.mpr (Or.inr (Or.inr rfl))⟩

theorem fold_closed (groups : List (List String)) (es : List Edge) :
    ∀ acc : Graph, acc.Closed → (es.foldl (compressStep groups) acc).Closed := by
  induction es with
  | nil => intro acc h; exact h
  | cons e rest ih =>
      intro acc h
      rw [List.foldl_cons]
      exact ih _ (compressStep_closed h)

theorem fold_nodeIds_mono (groups : List (List String)) (es : List Edge) :
    ∀ (acc : Graph) (x : String), x ∈ acc.nodeIds →
      x ∈ (es.foldl (compressStep groups) acc).nodeIds := by
  induction es with
  | nil => intro acc x h; exact h
  | cons e rest ih =>
      intro acc x h
      rw [List.foldl_cons]
      exact ih _ x (compressStep_nodeIds_mono h)

theorem compressStep_nodeIds_mem {groups : List (List String)} {acc : Graph} {e : Edge}
    {x : String} (hcl : acc.Closed) :
    x ∈ (compressStep groups acc e).nodeIds ↔ x ∈ acc.nodeIds ∨
      (nodeMapFn groups e.src ≠ nodeMapFn groups e.tgt ∧
        (x = nodeMapFn groups e.src ∨ x = nodeMapFn groups e.tgt)) := by
  simp only [compressStep]
  by_cases huv : nodeMapFn groups e.src = nodeMapFn groups e.tgt
  · rw [if_pos huv]
    constructor
    · exact Or.inl
    · rintro (h | ⟨hne, _⟩)
      · exact h
      · exact absurd huv hne
  · rw [if_neg huv]
    by_cases hh : acc.hasEdge (nodeMapFn groups e.src) (nodeMapFn groups e.tgt) = true
    · rw [if_pos hh]
      show x ∈ acc.nodeIds ↔ _
      constructor
      · exact Or.inl
      · rintro (h | ⟨hne, hor⟩)
        · exact h
        · obtain ⟨e2, he2, hs, ht⟩ := hasEdge_iff.mp hh
          obtain ⟨h1, h2⟩ := hcl e2 he2
          rcases hor with rfl | rfl
          · exact hs ▸ h1
          · exact ht ▸ h2
    · rw [if_neg hh, addEdgeG_nodeIds_mem]
      constructor
      · rintro (h | h | h)
        · exact Or.inl h
        · exact Or.inr ⟨huv, Or.inl h⟩
        · exact Or.inr ⟨huv, Or.inr h⟩
      · rintro (h | ⟨_, h | h⟩)
        · exact Or.inl h
        · exact Or.inr (Or.inl h)
        · exact Or.inr (Or.inr h)

theorem fold_nodeIds_mem (groups : List (List String)) (es : List Edge) :
    ∀ (acc : Graph), acc.Closed → ∀ (x : String),
      (x ∈ (es.foldl (compressStep groups) acc).nodeIds ↔ x ∈ acc.nodeIds ∨
        ∃ e ∈ es, nodeMapFn groups e.src ≠ nodeMapFn groups e.tgt ∧
          (x = nodeMapFn groups e.src ∨ x = nodeMapFn groups e.tgt)) := by
  induction es with
  | nil => intro acc _ x; simp
  | cons e rest ih =>
      intro acc hcl x
      rw [List.foldl_cons, ih _ (compressStep_closed hcl), compressStep_nodeIds_mem hcl]
      constructor
      · rintro ((h | hE) | ⟨e2, he2, h3⟩)
        · exact Or.inl h
        · exact Or.inr ⟨e, List.mem_cons_self _ _, hE⟩
        · exact Or.inr ⟨e2, List.mem_cons_of_mem _ he2, h3⟩
      · rintro (h | ⟨e2, he2, h3⟩)
        · exact Or.inl (Or.inl h)
        · rcases List.mem_cons.mp he2 with rfl | hr
          · exact Or.inl (Or.inr h3)
          · exact Or.inr ⟨e2, hr, h3⟩

theorem compressStep_nsl {groups : List (List String)} {acc : Graph} {e : Edge}
    (h : ∀ e' ∈ acc.edges, e'.src ≠ e'.tgt) :
    ∀ e' ∈ (compressStep groups acc e).edges, e'.src ≠ e'.tgt := by
  simp only [compressStep]
  split
  · exact h
  · split
    · exact pairs_imp (fun s t => s ≠ t) (bumpEdgeList_pairs acc.edges _ _ _) h
    · rename_i huv _
      intro e' he'
      rcases List.mem_append.mp (by
          simpa only [Graph.addEdgeG, ensureNode_edges] using he') with hm | hm
      · exact h e' hm
      · rw [List.mem_singleton] at hm
        subst hm
        exact huv

theorem fold_nsl (groups : List (List String)) (es : List Edge) :
    ∀ acc : Graph, (∀ e' ∈ acc.edges, e'.src ≠ e'.tgt) →
      ∀ e' ∈ (es.foldl (compressStep groups) acc).edges, e'.src ≠ e'.tgt := by
  induction es with
  | nil => intro acc h; exact h
  | cons e rest ih =>
      intro acc h
      rw [List.foldl_cons]
      exact ih _ (compressStep_nsl h)

theorem pairwise_pairs {es' es : List Edge}
    (h : es'.map (fun e => (e.src, e.tgt)) = es.map (fun e => (e.src, e.tgt)))
    (hp : es.Pairwise (fun e1 e2 => ¬(e1.src = e2.src ∧ e1.tgt = e2.tgt))) :
    es'.Pairwise (fun e1 e2 => ¬(e1.src = e2.src ∧ e1.tgt = e2.tgt)) := by
  have hp2 : (es.map (fun e => (e.src, e.tgt))).Pairwise
      (fun p q => ¬(p.1 = q.1 ∧ p.2 = q.2)) := by
    rw [List.pairwise_map]
    exact hp
  rw [← h, List.pairwise_map] at hp2
  exact hp2

theorem compressStep_pairwise {groups : List (List String)} {acc : Graph} {e : Edge}
    (h : acc.edges.Pairwise (fun e1 e2 => ¬(e1.src = e2.src ∧ e1.tgt = e2.tgt))) :
    (compressStep groups acc e).edges.Pairwise
      (fun e1 e2 => ¬(e1.src = e2.src ∧ e1.tgt = e2.tgt)) := by
  simp only [compressStep]
  split
  · exact h
  · split
    · exact pairwise_pairs (bumpEdgeList_pairs acc.edges _ _ _) h
    · rename_i huv hne
      have hed : (acc.addEdgeG (nodeMapFn groups e.src) (nodeMapFn groups e.tgt)
          e.weight e.relation).edges =
          acc.edges ++ [⟨nodeMapFn groups e.src, nodeMapFn groups e.tgt,
            e.weight, e.relation⟩] := by
        simp only [Graph.addEdgeG, ensureNode_edges]
      rw [hed, List.pairwise_append]
      refine ⟨h, List.pairwise_singleton _ _, ?_⟩
      intro e1 he1 e2 he2
      rw [List.mem_singleton] at he2
      subst he2
      rintro ⟨hs, ht⟩
      apply hne
      exact hasEdge_iff.mpr ⟨e1, he1, hs, ht⟩

theorem fold_pairwise (groups : List (List String)) (es : List Edge) :
    ∀ acc : Graph,
      acc.edges.Pairwise (fun e1 e2 => ¬(e1.src = e2.src ∧ e1.tgt = e2.tgt)) →
      (es.foldl (compressStep groups) acc).edges.Pairwise
        (fun e1 e2 => ¬(e1.src = e2.src ∧ e1.tgt = e2.tgt)) := by
  induction es with
  | nil => intro acc h; exact h
  | cons e rest ih =>
      intro acc h
      rw [List.foldl_cons]
      exact ih _ (compressStep_pairwise h)

theorem ensureNode_nodeIds_nodup {g : Graph} {n : String} (h : g.nodeIds.Nodup) :
    (g.ensureNode n).nodeIds.Nodup := by
  unfold Graph.ensureNode
  split
  · exact h
  · rename_i hh
    rw [Bool.not_eq_true] at hh
    have hn : n ∉ g.nodeIds := by
      intro hm
      rw [hasNode_iff.mpr hm] at hh
      cases hh
    show (List.map Prod.fst (g.nodes ++ [(n, emptyAttrs)])).Nodup
    rw [List.map_append]
    simp only [List.map_cons, List.map_nil]
    rw [List.nodup_append]
    exact ⟨h, List.nodup_singleton n, by
      intro x hx hx2
      rw [List.mem_singleton] at hx2
      subst hx2
      exact hn hx⟩

theorem compressStep_nodeIds_nodup {groups : List (List String)} {acc : Graph} {e : Edge}
    (h : acc.nodeIds.Nodup) : (compressStep groups acc e).nodeIds.Nodup := by
  simp only [compressStep]
  split
  · exact h
  · split
    · exact h
    · exact ensureNode_nodeIds_nodup (ensureNode_nodeIds_nodup h)

theorem fold_nodeIds_nodup (groups : List (List String)) (es : List Edge) :
    ∀ acc : Graph, acc.nodeIds.Nodup →
      (es.foldl (compressStep groups) acc).nodeIds.Nodup := by
  induction es with
  | nil => intro acc h; exact h
  | cons e rest ih =>
      intro acc h
      rw [List.foldl_cons]
      exact ih _ (compressStep_nodeIds_nodup h)

/-! ### Super-node creation facts (towards C2) -/

theorem addNodeAttr_nodeIds_of_has {g : Graph} {n : String} {d : NodeData}
    (h : g.hasNode n = true) : (g.addNodeAttr n d).nodeIds = g.nodeIds := by
  unfold Graph.addNodeAttr
  rw [if_pos h]
  show (g.nodes.map (fun nd => if nd.1 == n then (n, d) else nd)).map Prod.fst = _
  rw [List.map_map]
  apply List.map_congr_left
  intro nd _
  by_cases hc : (nd.1 == n) = true
  · simp only [Function.comp_apply, hc, if_true]
    exact (beq_iff_eq.mp hc).symm
  · simp only [Function.comp_apply, hc, Bool.false_eq_true, if_false]

theorem addNodeAttr_nodeIds_of_not_has {g : Graph} {n : String} {d : NodeData}
    (h : ¬g.hasNode n = true) : (g.addNodeAttr n d).nodeIds = g.nodeIds ++ [n] := by
  unfold Graph.addNodeAttr
  rw [if_neg h]
  show (g.nodes ++ [(n, d)]).map Prod.fst = _
  rw [List.map_append]
  rfl

theorem addNodeAttr_nodeIds_mem {g : Graph} {n x : String} {d : NodeData} :
    x ∈ (g.addNodeAttr n d).nodeIds ↔ x ∈ g.nodeIds ∨ x = n := by
  by_cases h : g.hasNode n = true
  · rw [addNodeAttr_nodeIds_of_has h]
    constructor
    · exact Or.inl
    · rintro (hx | rfl)
      · exact hx
      · exact hasNode_iff.mp h
  · rw [addNodeAttr_nodeIds_of_not_has h, List.mem_append, List.mem_singleton]

theorem addNodeAttr_edges2 (g : Graph) (n : String) (d : NodeData) :
    (g.addNodeAttr n d).edges = g.edges := by
  unfold Graph.addNodeAttr
  split <;> rfl

theorem buildSupersFold_nodeIds_mem (g : Graph) :
    ∀ (gs : List (List String)) (acc : Graph) (x : String),
      (x ∈ (gs.foldl (fun acc grp =>
          acc.addNodeAttr (superName grp) ⟨some (groupFreq g grp), some grp⟩)
        acc).nodeIds ↔ x ∈ acc.nodeIds ∨ ∃ grp ∈ gs, superName grp = x) := by
  intro gs
  induction gs with
  | nil => intro acc x; simp
  | cons grp rest ih =>
      intro acc x
      rw [List.foldl_cons, ih]
      rw [addNodeAttr_nodeIds_mem]
      constructor
      · rintro ((h | rfl) | ⟨grp2, hg2, hx⟩)
        · exact Or.inl h
        · exact Or.inr ⟨grp, List.mem_cons_self _ _, rfl⟩
        · exact Or.inr ⟨grp2, List.mem_cons_of_mem _ hg2, hx⟩
      · rintro (h | ⟨grp2, hg2, hx⟩)
        · exact Or.inl (Or.inl h)
        · rcases List.mem_cons.mp hg2 with rfl | hr
          · exact Or.inl (Or.inr hx.symm)
          · exact Or.inr ⟨grp2, hr, hx⟩

theorem buildSupers_nodeIds_mem (g : Graph) (groups : List (List String)) (x : String) :
    x ∈ (buildSupers g groups).nodeIds ↔ ∃ grp ∈ groups, superName grp = x := by
  rw [buildSupers, buildSupersFold_nodeIds_mem]
  constructor
  · rintro (h | h)
    · simp [Graph.nodeIds] at h
    · exact h
  · exact Or.inr

theorem buildSupersFold_nodeIds_eq (g : Graph) :
    ∀ (gs : List (List String)) (acc : Graph), (gs.map superName).Nodup →
      (∀ s ∈ gs.map superName, s ∉ acc.nodeIds) →
      (gs.foldl (fun acc grp =>
          acc.addNodeAttr (superName grp) ⟨some (groupFreq g grp), some grp⟩)
        acc).nodeIds = acc.nodeIds ++ gs.map superName := by
  intro gs
  induction gs with
  | nil => intro acc _ _; simp
  | cons grp rest ih =>
      intro acc hnd hfresh
      rw [List.foldl_cons]
      have hnot : ¬acc.hasNode (superName grp) = true := by
        intro hh
        exact hfresh (superName grp) (by simp) (hasNode_iff.mp hh)
      have hids : (acc.addNodeAttr (superName grp)
          ⟨some (groupFreq g grp), some grp⟩).nodeIds = acc.nodeIds ++ [superName grp] :=
        addNodeAttr_nodeIds_of_not_has hnot
      rw [ih _ ((List.map_cons superName grp rest ▸ hnd).sublist (List.sublist_cons_self _ _))
        ?_, hids]
      · simp
      · intro s hs hsin
        rw [hids, List.mem_append, List.mem_singleton] at hsin
        rcases hsin with h1 | rfl
        · exact hfresh s (List.mem_cons_of_mem _ hs) h1
        · rw [List.map_cons] at hnd
          exact (List.nodup_cons.mp hnd).1 hs

theorem buildSupers_nodeIds_eq (g : Graph) (groups : List (List String))
    (hnd : (groups.map superName).Nodup) :
    (buildSupers g groups).nodeIds = groups.map superName := by
  rw [buildSupers, buildSupersFold_nodeIds_eq g groups ⟨[], []⟩ hnd]
  · rfl
  · intro s _ hs
    simp [Graph.nodeIds] at hs

theorem superNames_nodup {g : Graph} (hWF : g.WF) (hPF : g.PipeFree) :
    ((groupPass g g.nodeIds).map superName).Nodup := by
  show ((groupPass g g.nodeIds).map superName).Pairwise _
  rw [List.pairwise_map]
  refine List.Pairwise.imp_of_mem ?_ (groupPass_disjoint g g.nodeIds hWF.1)
  intro grp1 grp2 h1 h2 hdisj heq
  have hgg : grp1 = grp2 := superName_inj (groupPass_two_le g _ grp1 h1)
    (groupPass_two_le g _ grp2 h2) (group_pipeFree hPF h1) (group_pipeFree hPF h2) heq
  subst hgg
  have h2le := groupPass_two_le g _ grp1 h1
  rcases grp1 with _ | ⟨a, t⟩
  · simp at h2le
  · exact hdisj a (List.mem_cons_self _ _) (List.mem_cons_self _ _)

/-! ### Characterization of the compressed graph (towards C2) -/

theorem compress_eq_fold (g : Graph) (hne : ¬g.nodes.isEmpty = true) :
    _compress_edges g = g.edges.foldl (compressStep (groupPass g g.nodeIds))
      (buildSupers g (groupPass g g.nodeIds)) := by
  unfold _compress_edges
  rw [if_neg hne]

theorem buildSupers_closed (g : Graph) (groups : List (List String)) :
    (buildSupers g groups).Closed := by
  intro e he
  rw [buildSupers_edges] at he
  simp at he

theorem buildSupers_not_EM (g : Graph) (groups : List (List String)) (x y : String) :
    ¬(buildSupers g groups).EM x y := by
  rintro ⟨e, he, _⟩
  rw [buildSupers_edges] at he
  simp at he

theorem compress_EM (g : Graph) (hne : ¬g.nodes.isEmpty = true) (x y : String) :
    (_compress_edges g).EM x y ↔ ∃ e ∈ g.edges,
      kappaOf g e.src = x ∧ kappaOf g e.tgt = y ∧ x ≠ y := by
  rw [compress_eq_fold g hne, EM_compress_fold]
  constructor
  · rintro (h | h)
    · exact absurd h (buildSupers_not_EM g _ x y)
    · exact h
  · exact Or.inr

theorem compress_nodeIds_mem (g : Graph) (hne : ¬g.nodes.isEmpty = true) (x : String) :
    x ∈ (_compress_edges g).nodeIds ↔
      (∃ grp ∈ groupPass g g.nodeIds, superName grp = x) ∨
      ∃ e ∈ g.edges, kappaOf g e.src ≠ kappaOf g e.tgt ∧
        (x = kappaOf g e.src ∨ x = kappaOf g e.tgt) := by
  rw [compress_eq_fold g hne,
    fold_nodeIds_mem _ _ _ (buildSupers_closed g _) x, buildSupers_nodeIds_mem]
  exact Iff.rfl

theorem kappa_ne_of_EM {g : Graph} (hWF : g.WF) (hNSL : g.NoSelfLoops)
    (hPF : g.PipeFree) {a w : String} (hEM : g.EM a w) : kappaOf g a ≠ kappaOf g w := by
  obtain ⟨e, he, hs, ht⟩ := hEM
  have ha : a ∈ g.nodeIds := hs ▸ (hWF.2.2 e he).1
  have hw : w ∈ g.nodeIds := ht ▸ (hWF.2.2 e he).2
  intro heq
  rcases (kappa_eq_iff hWF hPF ha hw).mp heq with rfl | hsame
  · exact hNSL e he (hs.trans ht.symm)
  · have hEq := sameNbhd_iff.mp hsame
    have hself : g.EM a a := (hEq.1 a).mpr ⟨e, he, hs, ht⟩
    obtain ⟨e2, he2, hs2, ht2⟩ := hself
    exact hNSL e2 he2 (hs2.trans ht2.symm)

theorem compress_EM_kappa_succ {g : Graph} (hWF : g.WF) (hNSL : g.NoSelfLoops)
    (hPF : g.PipeFree) (hne : ¬g.nodes.isEmpty = true) {a y : String}
    (ha : a ∈ g.nodeIds) :
    (_compress_edges g).EM (kappaOf g a) y ↔ ∃ w, g.EM a w ∧ kappaOf g w = y := by
  rw [compress_EM g hne]
  constructor
  · rintro ⟨e, he, hs, ht, hxy⟩
    have hsrc_mem : e.src ∈ g.nodeIds := (hWF.2.2 e he).1
    rcases (kappa_eq_iff hWF hPF hsrc_mem ha).mp hs with heq | hsame
    · exact ⟨e.tgt, ⟨e, he, heq, rfl⟩, ht⟩
    · have hEq := sameNbhd_iff.mp hsame
      exact ⟨e.tgt, (hEq.2 e.tgt).mp ⟨e, he, rfl, rfl⟩, ht⟩
  · rintro ⟨w, hEM, rfl⟩
    obtain ⟨e, he, hs, ht⟩ := hEM
    refine ⟨e, he, by rw [hs], by rw [ht], ?_⟩
    exact kappa_ne_of_EM hWF hNSL hPF ⟨e, he, hs, ht⟩

theorem compress_EM_kappa_pred {g : Graph} (hWF : g.WF) (hNSL : g.NoSelfLoops)
    (hPF : g.PipeFree) (hne : ¬g.nodes.isEmpty = true) {a y : String}
    (ha : a ∈ g.nodeIds) :
    (_compress_edges g).EM y (kappaOf g a) ↔ ∃ w, g.EM w a ∧ kappaOf g w = y := by
  rw [compress_EM g hne]
  constructor
  · rintro ⟨e, he, hs, ht, hxy⟩
    have htgt_mem : e.tgt ∈ g.nodeIds := (hWF.2.2 e he).2
    rcases (kappa_eq_iff hWF hPF htgt_mem ha).mp ht with heq | hsame
    · exact ⟨e.src, ⟨e, he, rfl, heq⟩, hs⟩
    · have hEq := sameNbhd_iff.mp hsame
      exact ⟨e.src, (hEq.1 e.src).mp ⟨e, he, rfl, rfl⟩, hs⟩
  · rintro ⟨w, hEM, rfl⟩
    obtain ⟨e, he, hs, ht⟩ := hEM
    refine ⟨e, he, by rw [hs], by rw [ht], ?_⟩
    exact kappa_ne_of_EM hWF hNSL hPF ⟨e, he, hs, ht⟩

theorem compress_node_is_kappa {g : Graph} (hWF : g.WF)
    (hne : ¬g.nodes.isEmpty = true) {x : String}
    (hx : x ∈ (_compress_edges g).nodeIds) : ∃ a ∈ g.nodeIds, kappaOf g a = x := by
  rcases (compress_nodeIds_mem g hne x).mp hx with ⟨grp, hg, hsn⟩ | ⟨e, he, _, hor⟩
  · have h2 := groupPass_two_le g _ grp hg
    rcases grp with _ | ⟨a, t⟩
    · simp at h2
    · refine ⟨a, groupPass_sub g _ _ hg a (List.mem_cons_self _ _), ?_⟩
      rw [← hsn]
      exact nodeMapFn_of_mem (groupPass_disjoint g _ hWF.1) hg (List.mem_cons_self _ _)
  · rcases hor with rfl | rfl
    · exact ⟨e.src, (hWF.2.2 e he).1, rfl⟩
    · exact ⟨e.tgt, (hWF.2.2 e he).2, rfl⟩

theorem compress_no_equiv {g : Graph} (hWF : g.WF) (hNSL : g.NoSelfLoops)
    (hPF : g.PipeFree) (hne : ¬g.nodes.isEmpty = true) :
    ∀ x ∈ (_compress_edges g).nodeIds, ∀ y ∈ (_compress_edges g).nodeIds, x ≠ y →
      ¬(sameNbhd (_compress_edges g) x y = true) := by
  intro x hx y hy hxy hsame
  obtain ⟨a, ha, rfl⟩ := compress_node_is_kappa hWF hne hx
  obtain ⟨b, hb, rfl⟩ := compress_node_is_kappa hWF hne hy
  have hEq := sameNbhd_iff.mp hsame
  have hsucc : ∀ w, g.EM a w ↔ g.EM b w := by
    intro w
    constructor
    · intro hEM
      have h1 : (_compress_edges g).EM (kappaOf g a) (kappaOf g w) :=
        (compress_EM_kappa_succ hWF hNSL hPF hne ha).mpr ⟨w, hEM, rfl⟩
      have h2 : (_compress_edges g).EM (kappaOf g b) (kappaOf g w) :=
        (hEq.2 (kappaOf g w)).mp h1
      obtain ⟨w2, hEM2, hk2⟩ := (compress_EM_kappa_succ hWF hNSL hPF hne hb).mp h2
      have hw_mem : w ∈ g.nodeIds := by
        obtain ⟨e, he, _, ht⟩ := hEM
        exact ht ▸ (hWF.2.2 e he).2
      have hw2_mem : w2 ∈ g.nodeIds := by
        obtain ⟨e, he, _, ht⟩ := hEM2
        exact ht ▸ (hWF.2.2 e he).2
      rcases (kappa_eq_iff hWF hPF hw2_mem hw_mem).mp hk2 with rfl | hsame2
      · exact hEM2
      · have hEq2 := sameNbhd_iff.mp hsame2
        exact (hEq2.1 b).mp hEM2
    · intro hEM
      have h1 : (_compress_edges g).EM (kappaOf g b) (kappaOf g w) :=
        (compress_EM_kappa_succ hWF hNSL hPF hne hb).mpr ⟨w, hEM, rfl⟩
      have h2 : (_compress_edges g).EM (kappaOf g a) (kappaOf g w) :=
        (hEq.2 (kappaOf g w)).mpr h1
      obtain ⟨w2, hEM2, hk2⟩ := (compress_EM_kappa_succ hWF hNSL hPF hne ha).mp h2
      have hw_mem : w ∈ g.nodeIds := by
        obtain ⟨e, he, _, ht⟩ := hEM
        exact ht ▸ (hWF.2.2 e he).2
      have hw2_mem : w2 ∈ g.nodeIds := by
        obtain ⟨e, he, _, ht⟩ := hEM2
        exact ht ▸ (hWF.2.2 e he).2
      rcases (kappa_eq_iff hWF hPF hw2_mem hw_mem).mp hk2 with rfl | hsame2
      · exact hEM2
      · have hEq2 := sameNbhd_iff.mp hsame2
        exact (hEq2.1 a).mp hEM2
  have hpred : ∀ w, g.EM w a ↔ g.EM w b := by
    intro w
    constructor
    · intro hEM
      have h1 : (_compress_edges g).EM (kappaOf g w) (kappaOf g a) :=
        (compress_EM_kappa_pred hWF hNSL hPF hne ha).mpr ⟨w, hEM, rfl⟩
      have h2 : (_compress_edges g).EM (kappaOf g w) (kappaOf g b) :=
        (hEq.1 (kappaOf g w)).mp h1
      obtain ⟨w2, hEM2, hk2⟩ := (compress_EM_kappa_pred hWF hNSL hPF hne hb).mp h2
      have hw_mem : w ∈ g.nodeIds := by
        obtain ⟨e, he, hs, _⟩ := hEM
        exact hs ▸ (hWF.2.2 e he).1
      have hw2_mem : w2 ∈ g.nodeIds := by
        obtain ⟨e, he, hs, _⟩ := hEM2
        exact hs ▸ (hWF.2.2 e he).1
      rcases (kappa_eq_iff hWF hPF hw2_mem hw_mem).mp hk2 with rfl | hsame2
      · exact hEM2
      · have hEq2 := sameNbhd_iff.mp hsame2
        exact (hEq2.2 b).mp hEM2
    · intro hEM
      have h1 : (_compress_edges g).EM (kappaOf g w) (kappaOf g b) :=
        (compress_EM_kappa_pred hWF hNSL hPF hne hb).mpr ⟨w, hEM, rfl⟩
      have h2 : (_compress_edges g).EM (kappaOf g w) (kappaOf g a) :=
        (hEq.1 (kappaOf g w)).mpr h1
      obtain ⟨w2, hEM2, hk2⟩ := (compress_EM_kappa_pred hWF hNSL hPF hne ha).mp h2
      have hw_mem : w ∈ g.nodeIds := by
        obtain ⟨e, he, hs, _⟩ := hEM
        exact hs ▸ (hWF.2.2 e he).1
      have hw2_mem : w2 ∈ g.nodeIds := by
        obtain ⟨e, he, hs, _⟩ := hEM2
        exact hs ▸ (hWF.2.2 e he).1
      rcases (kappa_eq_iff hWF hPF hw2_mem hw_mem).mp hk2 with rfl | hsame2
      · exact hEM2
      · have hEq2 := sameNbhd_iff.mp hsame2
        exact (hEq2.2 a).mp hEM2
  have hsg : sameNbhd g a b = true := sameNbhd_iff.mpr ⟨hpred, hsucc⟩
  exact hxy ((kappa_eq_iff hWF hPF ha hb).mpr (Or.inr hsg))

/-! ### Idempotence assembly (C2) -/

theorem nodeMapFn_nil (n : String) : nodeMapFn [] n = n := rfl

theorem edge_eta (e : Edge) : (⟨e.src, e.tgt, e.weight, e.relation⟩ : Edge) = e := rfl

theorem compress_nsl (g : Graph) (hne : ¬g.nodes.isEmpty = true) :
    ∀ e' ∈ (_compress_edges g).edges, e'.src ≠ e'.tgt := by
  rw [compress_eq_fold g hne]
  apply fold_nsl
  intro e' he'
  rw [buildSupers_edges] at he'
  simp at he'

theorem compress_pairwise (g : Graph) (hne : ¬g.nodes.isEmpty = true) :
    (_compress_edges g).edges.Pairwise
      (fun e1 e2 => ¬(e1.src = e2.src ∧ e1.tgt = e2.tgt)) := by
  rw [compress_eq_fold g hne]
  apply fold_pairwise
  rw [buildSupers_edges]
  exact List.Pairwise.nil

theorem compress_closed (g : Graph) (hne : ¬g.nodes.isEmpty = true) :
    (_compress_edges g).Closed := by
  rw [compress_eq_fold g hne]
  exact fold_closed _ _ _ (buildSupers_closed g _)

theorem compress_ids_nodup {g : Graph} (hWF : g.WF) (hPF : g.PipeFree)
    (hne : ¬g.nodes.isEmpty = true) : (_compress_edges g).nodeIds.Nodup := by
  rw [compress_eq_fold g hne]
  apply fold_nodeIds_nodup
  rw [buildSupers_nodeIds_eq g _ (superNames_nodup hWF hPF)]
  exact superNames_nodup hWF hPF

theorem compress_no_isolates {g : Graph} (hWF : g.WF) (hNSL : g.NoSelfLoops)
    (hNI : g.NoIsolated) (hPF : g.PipeFree) (hne : ¬g.nodes.isEmpty = true) :
    ∀ x ∈ (_compress_edges g).nodeIds,
      ∃ y, (_compress_edges g).EM x y ∨ (_compress_edges g).EM y x := by
  intro x hx
  obtain ⟨a, ha, rfl⟩ := compress_node_is_kappa hWF hne hx
  obtain ⟨e, he, hor⟩ := hasIncident_iff.mp (hNI a ha)
  rcases hor with hs | ht
  · exact ⟨kappaOf g e.tgt, Or.inl ((compress_EM_kappa_succ hWF hNSL hPF hne ha).mpr
      ⟨e.tgt, ⟨e, he, hs, rfl⟩, rfl⟩)⟩
  · exact ⟨kappaOf g e.src, Or.inr ((compress_EM_kappa_pred hWF hNSL hPF hne ha).mpr
      ⟨e.src, ⟨e, he, rfl, ht⟩, rfl⟩)⟩

theorem rebuild_edges : ∀ (es : List Edge) (acc : Graph),
    (∀ e ∈ es, e.src ≠ e.tgt) →
    ((acc.edges ++ es).Pairwise (fun e1 e2 => ¬(e1.src = e2.src ∧ e1.tgt = e2.tgt))) →
    (es.foldl (compressStep []) acc).edges = acc.edges ++ es := by
  intro es
  induction es with
  | nil => intro acc _ _; simp
  | cons e rest ih =>
      intro acc hnsl hpw
      rw [List.foldl_cons]
      have hstep : compressStep [] acc e =
          acc.addEdgeG e.src e.tgt e.weight e.relation := by
        simp only [compressStep, nodeMapFn_nil]
        rw [if_neg (hnsl e (List.mem_cons_self _ _))]
        have hhe : acc.hasEdge e.src e.tgt = false := by
          rw [← Bool.not_eq_true]
          intro hh
          obtain ⟨e2, he2, hs2, ht2⟩ := hasEdge_iff.mp hh
          have := (List.pairwise_append.mp hpw).2.2 e2 he2 e (List.mem_cons_self _ _)
          exact this ⟨hs2, ht2⟩
        rw [hhe]
        simp
      rw [hstep]
      have hacc_ed : (acc.addEdgeG e.src e.tgt e.weight e.relation).edges =
          acc.edges ++ [e] := by
        simp only [Graph.addEdgeG, ensureNode_edges, edge_eta]
      have hrec := ih (acc.addEdgeG e.src e.tgt e.weight e.relation)
        (fun e2 he2 => hnsl e2 (List.mem_cons_of_mem _ he2)) ?_
      · rw [hrec, hacc_ed, List.append_assoc]
        rfl
      · rw [hacc_ed, List.append_assoc]
        exact hpw

/-- C2 (amended).  On every well-formed graph with no self-loops, no isolated
nodes, and pipe-free node identifiers, compression is idempotent: recompressing the
compressed graph changes nothing — the edge list is literally unchanged, the node
set is unchanged, and the partition pass finds no further merges. -/
theorem C2_compression_idempotent_amended (g : Graph) (hWF : g.WF)
    (hNSL : g.NoSelfLoops) (hNI : g.NoIsolated) (hPF : g.PipeFree) :
    (_compress_edges (_compress_edges g)).edges = (_compress_edges g).edges ∧
    ((_compress_edges (_compress_edges g)).nodeIds).toFinset =
      ((_compress_edges g).nodeIds).toFinset ∧
    groupPass (_compress_edges g) (_compress_edges g).nodeIds = [] := by
  by_cases hgne : g.nodes.isEmpty = true
  · have hg : _compress_edges g = g := by
      unfold _compress_edges
      rw [if_pos hgne]
    have hnil : g.nodes = [] := List.isEmpty_iff.mp hgne
    have hids : g.nodeIds = [] := by
      rw [Graph.nodeIds, hnil]
      rfl
    rw [hg, hg, hids]
    exact ⟨rfl, rfl, rfl⟩
  · have hC_nsl := compress_nsl g hgne
    have hC_pw := compress_pairwise g hgne
    have hC_closed := compress_closed g hgne
    have hC_nodup := compress_ids_nodup hWF hPF hgne
    have hC_noiso := compress_no_isolates hWF hNSL hNI hPF hgne
    have hgroups2 : groupPass (_compress_edges g) (_compress_edges g).nodeIds = [] :=
      groupPass_nil_of_no_pair _ _ hC_nodup (compress_no_equiv hWF hNSL hPF hgne)
    set C := _compress_edges g with hCdef
    by_cases hCne : C.nodes.isEmpty = true
    · have hCC : _compress_edges C = C := by
        unfold _compress_edges
        rw [if_pos hCne]
      rw [hCC]
      exact ⟨rfl, rfl, hgroups2⟩
    · have hfold := compress_eq_fold C hCne
      have hbs : buildSupers C [] = (⟨[], []⟩ : Graph) := rfl
      have hedges : (_compress_edges C).edges = C.edges := by
        rw [hfold, hgroups2, hbs]
        have hre := rebuild_edges C.edges ⟨[], []⟩ hC_nsl (by simpa using hC_pw)
        rw [hre]
        simp
      refine ⟨hedges, ?_, hgroups2⟩
      ext x
      simp only [List.mem_toFinset]
      rw [hfold, hgroups2, hbs]
      rw [fold_nodeIds_mem [] C.edges ⟨[], []⟩ (by intro e he; simp at he) x]
      simp only [nodeMapFn_nil]
      constructor
      · rintro (h | ⟨e, he, hne2, hor⟩)
        · simp [Graph.nodeIds] at h
        · rcases hor with rfl | rfl
          · exact (hC_closed e he).1
          · exact (hC_closed e he).2
      · intro hx
        obtain ⟨y, hEM | hEM⟩ := hC_noiso x hx
        · obtain ⟨e, he, hs, ht⟩ := hEM
          exact Or.inr ⟨e, he, hC_nsl e he, Or.inl hs.symm⟩
        · obtain ⟨e, he, hs, ht⟩ := hEM
          exact Or.inr ⟨e, he, hC_nsl e he, Or.inr ht.symm⟩

/-- Witness for the amended C2 on the loop-free isolate-free graph `Gw2`. -/
theorem C2_compression_idempotent_witness :
    Gw2.WF ∧ Gw2.NoSelfLoops ∧ Gw2.NoIsolated ∧ Gw2.PipeFree ∧
    (_compress_edges (_compress_edges Gw2)).edges = (_compress_edges Gw2).edges :=
  ⟨by decide, by decide, by decide, by decide,
    (C2_compression_idempotent_amended Gw2 (by decide) (by decide) (by decide)
      (by decide)).1⟩

end PhraseNet
